import Mathlib

/-!
# Workflow engine (package `workflow`, file `workflow/main.go`)

A shallow embedding of the DAG task executor and a verification of its
specification.

Modelling conventions.

* A `*Node` is an address (`Ptr`); the nodes a workflow can reach live in
  `Workflow.heap`.  `wf.Nodes` and `node.Requires` are lists of addresses,
  the maps of `topologicalSort` are keyed by `Node.Id`, exactly as in Go.
* A task (`Fn`, called through `reflect`) is its name, its parameter types
  and the outcome of `reflect.Value.Call` on a list of arguments.
* `Run` starts one goroutine per node.  A goroutine is a program counter
  (`PC`); one call of `step` runs one goroutine up to its next shared
  access; an execution is a schedule, the list of goroutines in the order
  in which they take their steps.  Statements that quantify over every
  schedule hold in every interleaving.
* Memory is sequentially consistent, and `executeNode` after its first
  statement is one step: it reads only nodes whose `Done` is closed and
  writes only its own node (`RunInv.started`, `Step.stable`).
* A call of a task is a total function of its arguments: it returns values
  or panics, it does not block or run forever.
* `fmt.Println`, the file written by `updateVisualization` and the external
  `dot` process do not touch the workflow and are left out.
-/

namespace Wf

/-! ## Data model -/

/-- Address of a `Node` (a Go `*Node`). -/
abbrev Ptr := Nat

/-- The constants `Pending`, `Running`, `Completed`, `Errored`. -/
inductive NodeState
  | Pending
  | Running
  | Completed
  | Errored
  deriving DecidableEq, Repr

/-- Error values.  `new` is `errors.New` called inside the package,
`external` an error value handed back by a task body (its identity differs
from that of every error the package creates), `depError` is
`fmt.Errorf("dependency error from node %d: %w", id, inner)` and
`panicError` is `fmt.Errorf("panic: %v", r)`. -/
inductive GoError
  | new (msg : String)
  | external (msg : String)
  | depError (id : Int) (inner : GoError)
  | panicError (r : String)
  deriving DecidableEq, Repr

/-- The method `Error()`: the text of an error value. -/
def GoError.Error : GoError → String
  | .new msg => msg
  | .external msg => msg
  | .depError id inner => "dependency error from node " ++ toString id ++ ": " ++ inner.Error
  | .panicError r => "panic: " ++ r

/-- Parameter types a task can declare. `iface` stands for an interface
type such as `error` or `interface{}`. -/
inductive GoType
  | string
  | int
  | bool
  | stringSlice
  | iface
  deriving DecidableEq, Repr

/-- Values held in an `interface{}`: `nil` is the nil interface, `strings
none` the nil slice, `err` a non-nil error value. -/
inductive Value
  | nil
  | str (s : String)
  | int (n : Int)
  | bool (b : Bool)
  | strings (xs : Option (List String))
  | err (msg : String)
  deriving DecidableEq, Repr

/-- What `reflect.TypeOf` returns: the nil type for the nil interface, a
declared parameter type, or a concrete type no parameter can have (the
pointer type behind an error value). -/
inductive DynType
  | nilType
  | param (t : GoType)
  | unexported
  deriving DecidableEq, Repr

/-- The function `reflect.TypeOf`. -/
def Value.typeOf : Value → DynType
  | .nil => .nilType
  | .str _ => .param .string
  | .int _ => .param .int
  | .bool _ => .param .bool
  | .strings _ => .param .stringSlice
  | .err _ => .unexported

/-- The value `reflect.Zero(t).Interface()`. -/
def GoType.zero : GoType → Value
  | .string => .str ""
  | .int => .int 0
  | .bool => .bool false
  | .stringSlice => .strings none
  | .iface => .nil

/-- The test `reflect.DeepEqual(a, reflect.Zero(reflect.TypeOf(a)).Interface())`;
`none` when `reflect.Zero` panics on the nil type. -/
def Value.isZero : Value → Option Bool
  | .nil => none
  | .str s => some (s = "")
  | .int n => some (n = 0)
  | .bool b => some (b = false)
  | .strings xs => some (xs = none)
  | .err _ => some false

/-- Outcome of `fnVal.Call(fnArgs)`: the returned values, or a panic raised
by `reflect` or by the task body. -/
inductive CallOutcome
  | returned (results : List Value)
  | panicked (r : String)
  deriving DecidableEq, Repr

/-- A task (`Func` is `interface{}` in Go and is only used through
`reflect`): the name `getFunctionName` reads, the parameter types
`fnType.In(i)` and the behaviour of `Call`. -/
structure Func where
  name : String
  inTypes : List GoType
  call : List Value → CallOutcome

/-- The struct `Node`.  `Done` is `true` once the channel is closed. -/
structure Node where
  Id : Int
  Fn : Func
  Args : List Value
  Result : Value
  Requires : List Ptr
  Error : Option GoError
  Done : Bool
  State : NodeState

/-- The struct `Workflow`, with the buffered channel `sem` given by its
capacity and its current length, together with the memory its nodes live
in. -/
structure Workflow where
  Nodes : List Ptr
  CurrentNodeID : Int
  semCap : Nat
  semLen : Nat
  Debug : Bool
  heap : Ptr → Node

/-- A task with no parameters that returns nothing. -/
def Func.blank : Func :=
  { name := "", inTypes := [], call := fun _ => .returned [] }

/-- Content of an address that holds no node yet. -/
def Node.blank : Node :=
  { Id := 0, Fn := Func.blank, Args := [], Result := .nil, Requires := [],
    Error := none, Done := false, State := .Pending }

/-! ## Construction -/

/-- The function `NewWorkflow`. -/
def NewWorkflow (concurrency : Int) (debug : Bool) : Except GoError Workflow :=
  if concurrency ≤ 0 then
    .error (.new "concurrency limit must be greater than 0")
  else
    .ok { Nodes := [], CurrentNodeID := 0, semCap := concurrency.toNat, semLen := 0,
          Debug := debug, heap := fun _ => Node.blank }

/-- The padding loop of `CreateNode`: while `len(args) < NumIn`, append the
zero value of parameter `len(args)`. -/
def padArgs (inTypes : List GoType) (args : List Value) : List Value :=
  args ++ (inTypes.drop args.length).map GoType.zero

/-- The method `CreateNode`; `p` is the address the allocator returns for
the new node. -/
def CreateNode (wf : Workflow) (p : Ptr) (fn : Func) (args : List Value) : Workflow × Ptr :=
  let node : Node :=
    { Id := wf.CurrentNodeID, Fn := fn, Args := padArgs fn.inTypes args, Result := .nil,
      Requires := [], Error := none, Done := false, State := .Pending }
  ({ wf with
      CurrentNodeID := wf.CurrentNodeID + 1
      Nodes := wf.Nodes ++ [p]
      heap := Function.update wf.heap p node }, p)

/-- The method `AddDependency`. -/
def AddDependency (wf : Workflow) (node : Ptr) (dependencies : List Ptr) : Workflow :=
  { wf with
      heap := Function.update wf.heap node
        { wf.heap node with Requires := (wf.heap node).Requires ++ dependencies } }

/-! ## Topological sort -/

/-- Local variables of `topologicalSort`: the slice `stack` and the maps
`visited` and `recStack` (a missing key reads `false`). -/
structure SortState where
  stack : List Ptr
  visited : Int → Bool
  recStack : Int → Bool

/-- The error of line 196. -/
def cycleError : GoError := .new "circular dependency detected"

/-- The loop `for _, req := range node.Requires` inside the closure `visit`;
`self` is the recursive call. -/
def visitRequires (heap : Ptr → Node)
    (self : Ptr → SortState → Option (Except GoError SortState)) :
    List Ptr → SortState → Option (Except GoError SortState)
  | [], st => some (.ok st)
  | req :: rest, st =>
    if st.visited (heap req).Id = false then
      match self req st with
      | some (.ok st1) => visitRequires heap self rest st1
      | other => other
    else if st.recStack (heap req).Id = true then
      some (.error cycleError)
    else
      visitRequires heap self rest st

/-- The closure `visit` of `topologicalSort`.  The first argument bounds the
recursion depth; `none` means the bound was reached. -/
def visit (heap : Ptr → Node) : Nat → Ptr → SortState → Option (Except GoError SortState)
  | 0, _, _ => none
  | fuel + 1, node, st =>
    let st1 : SortState :=
      { st with
          visited := Function.update st.visited (heap node).Id true
          recStack := Function.update st.recStack (heap node).Id true }
    match visitRequires heap (visit heap fuel) (heap node).Requires st1 with
    | some (.ok st2) =>
      some (.ok { st2 with
                    recStack := Function.update st2.recStack (heap node).Id false
                    stack := st2.stack ++ [node] })
    | other => other

/-- The loop `for _, node := range wf.Nodes` of `topologicalSort`. -/
def visitNodes (heap : Ptr → Node) (fuel : Nat) :
    List Ptr → SortState → Option (Except GoError SortState)
  | [], st => some (.ok st)
  | node :: rest, st =>
    if st.visited (heap node).Id = false then
      match visit heap fuel node st with
      | some (.ok st1) => visitNodes heap fuel rest st1
      | other => other
    else
      visitNodes heap fuel rest st

/-- The final loop of `topologicalSort`: pop the last element of `stack` and
append it to `sortedNodes` until `stack` is empty. -/
def popAll (stack : List Ptr) : List Ptr :=
  stack.foldr (fun n sortedNodes => sortedNodes ++ [n]) []

/-- The method `topologicalSort`.  The recursion of `visit` is bounded by the
number of nodes; `none` means that bound was too small. -/
def topologicalSort (wf : Workflow) : Option (Except GoError (List Ptr)) :=
  match visitNodes wf.heap wf.Nodes.length wf.Nodes
      { stack := [], visited := fun _ => false, recStack := fun _ => false } with
  | some (.ok st) => some (.ok (popAll st.stack))
  | some (.error e) => some (.error e)
  | none => none

/-! ## Node execution -/

/-- The loop `for i := 0; i < fnType.NumIn(); i++` of `executeNode` for one
dependency result: the first slot `i` whose parameter type is the type of
`result` and whose argument is the zero value of its own type receives
`result`, and the loop breaks.  The error is the panic raised by
`node.Args[i]` or by `reflect.Zero`. -/
def bindSlot (result : Value) : List GoType → Nat → List Value → Except String (List Value)
  | [], _, args => .ok args
  | t :: ts, i, args =>
    if result.typeOf = .param t then
      match args[i]? with
      | none =>
        .error ("runtime error: index out of range [" ++ toString i ++ "] with length "
          ++ toString args.length)
      | some a =>
        match a.isZero with
        | none => .error "reflect: Zero(nil)"
        | some true => .ok (args.set i result)
        | some false => bindSlot result ts (i + 1) args
    else
      bindSlot result ts (i + 1) args

/-- The loop `for _, dep := range node.Requires` of `executeNode`: the
arguments when the loop ends, and the panic that ended it, if any. -/
def bindArgs (heap : Ptr → Node) (inTypes : List GoType) :
    List Ptr → List Value → List Value × Option String
  | [], args => (args, none)
  | dep :: rest, args =>
    match bindSlot (heap dep).Result inTypes 0 args with
    | .ok args1 => bindArgs heap inTypes rest args1
    | .error r => (args, some r)

/-- First statement of `executeNode`: `node.State = Running`. -/
def executeNodeBegin (n : Node) : Node :=
  { n with State := .Running }

/-- The rest of `executeNode`, from the deferred `recover` on: the node when
the method returns, and whether `fnVal.Call` was reached. -/
def executeNodeBody (heap : Ptr → Node) (node : Ptr) : Node × Bool :=
  let n := heap node
  match bindArgs heap n.Fn.inTypes n.Requires n.Args with
  | (args, some r) => ({ n with Args := args, Error := some (.panicError r) }, false)
  | (args, none) =>
    match n.Fn.call args with
    | .panicked r => ({ n with Args := args, Error := some (.panicError r) }, true)
    | .returned results =>
      match results[1]? with
      | some (Value.err msg) =>
        ({ n with Args := args, Error := some (.external msg), State := .Errored }, true)
      | _ =>
        match results.head? with
        | some v => ({ n with Args := args, Result := v, State := .Completed }, true)
        | none => ({ n with Args := args, State := .Completed }, true)

/-- The method `executeNode` run without interruption. -/
def executeNode (heap : Ptr → Node) (node : Ptr) : Node × Bool :=
  executeNodeBody (Function.update heap node (executeNodeBegin (heap node))) node

/-! ## Run -/

/-- Where the goroutine of a node stands in the function literal of `Run`
(lines 94 to 127). -/
inductive PC
  /-- About to receive from `req.Done` for requirement number `i`, or to
  leave the loop when there is none. -/
  | waitDep (i : Nat)
  /-- About to test `req.Error != nil` for requirement number `i`. -/
  | checkDep (i : Nat) (req : Ptr)
  /-- After `n.Error = fmt.Errorf(...)`, about to `close(n.Done)` and return. -/
  | closeBlocked
  /-- About to send on `wf.sem`. -/
  | acquire
  /-- About to enter `executeNode`. -/
  | execStart
  /-- Inside `executeNode`, after `node.State = Running`. -/
  | execBody
  /-- About to `close(n.Done)` after `executeNode` returned. -/
  | closeDone
  /-- About to receive from `wf.sem`. -/
  | release
  /-- About to test `n.Error != nil && firstEncounteredError == nil`. -/
  | captureCheck
  /-- About to call `errorLock.Lock()`. -/
  | captureLock
  /-- Holding the lock, about to test and set `firstEncounteredError`. -/
  | captureWrite
  /-- About to call `errorLock.Unlock()`. -/
  | captureUnlock
  /-- Returned; the deferred `wg.Done()` has run. -/
  | finished
  deriving DecidableEq, Repr

/-- The memory `Run` works on after the goroutines are started: the nodes,
one program counter per node, the length of `wf.sem`, the variables
`firstEncounteredError` and `errorLock`, and the list of the nodes whose task
has been called so far (kept for the statements, not read by the code). -/
structure RunState where
  heap : Ptr → Node
  pc : Ptr → PC
  semLen : Nat
  firstEncounteredError : Option GoError
  errorLock : Bool
  invoked : List Ptr

/-- The goroutine of node `n` moves to program point `c`. -/
def RunState.goto (s : RunState) (n : Ptr) (c : PC) : RunState :=
  { s with pc := Function.update s.pc n c }

/-- Node `n` is overwritten with `node`. -/
def RunState.store (s : RunState) (n : Ptr) (node : Node) : RunState :=
  { s with heap := Function.update s.heap n node }

/-- One step of the goroutine of node `n`; `none` when it cannot move: it is
blocked on a channel or on the lock, it has returned, or it would close a
closed channel (a panic that ends the process). -/
def step (cap : Nat) (s : RunState) (n : Ptr) : Option RunState :=
  match s.pc n with
  | .waitDep i =>
    match (s.heap n).Requires[i]? with
    | none => some (s.goto n .acquire)
    | some req =>
      if (s.heap req).Done = true then some (s.goto n (.checkDep i req)) else none
  | .checkDep i req =>
    match (s.heap req).Error with
    | some e =>
      some ((s.store n { s.heap n with Error := some (.depError (s.heap req).Id e) }).goto n
        .closeBlocked)
    | none => some (s.goto n (.waitDep (i + 1)))
  | .closeBlocked =>
    if (s.heap n).Done = true then none
    else some ((s.store n { s.heap n with Done := true }).goto n .finished)
  | .acquire =>
    if s.semLen < cap then some ({ s with semLen := s.semLen + 1 }.goto n .execStart)
    else none
  | .execStart => some ((s.store n (executeNodeBegin (s.heap n))).goto n .execBody)
  | .execBody =>
    some (({ s with
              invoked :=
                if (executeNodeBody s.heap n).2 = true then s.invoked ++ [n]
                else s.invoked }.store n (executeNodeBody s.heap n).1).goto n .closeDone)
  | .closeDone =>
    if (s.heap n).Done = true then none
    else some ((s.store n { s.heap n with Done := true }).goto n .release)
  | .release =>
    if s.semLen = 0 then none
    else some ({ s with semLen := s.semLen - 1 }.goto n .captureCheck)
  | .captureCheck =>
    if (s.heap n).Error ≠ none ∧ s.firstEncounteredError = none then
      some (s.goto n .captureLock)
    else some (s.goto n .finished)
  | .captureLock =>
    if s.errorLock = true then none
    else some ({ s with errorLock := true }.goto n .captureWrite)
  | .captureWrite =>
    some ({ s with
             firstEncounteredError :=
               if s.firstEncounteredError = none then (s.heap n).Error
               else s.firstEncounteredError }.goto n .captureUnlock)
  | .captureUnlock => some ({ s with errorLock := false }.goto n .finished)
  | .finished => none

/-- The state right after the loop that starts the goroutines: one goroutine
per node of `wf.Nodes`, each at the top of its function. -/
def initRun (wf : Workflow) : RunState :=
  { heap := wf.heap
    pc := fun p => if p ∈ wf.Nodes then .waitDep 0 else .finished
    semLen := wf.semLen
    firstEncounteredError := none
    errorLock := false
    invoked := [] }

/-- The goroutines take their steps in the order `sched` lists them; an
entry whose goroutine cannot move is passed over. -/
def runSchedule (cap : Nat) : RunState → List Ptr → RunState
  | s, [] => s
  | s, n :: rest =>
    match step cap s n with
    | some s1 => runSchedule cap s1 rest
    | none => runSchedule cap s rest

/-- What a call of `Run` leaves: the error it returns, the workflow, and the
nodes whose task was called, in call order. -/
structure RunResult where
  err : Option GoError
  wf : Workflow
  invoked : List Ptr

/-- What `Run` hands back once `wg.Wait()` has returned in state `s`. -/
def finish (wf : Workflow) (s : RunState) : RunResult :=
  { err := s.firstEncounteredError
    wf := { wf with heap := s.heap, semLen := s.semLen }
    invoked := s.invoked }

/-- The part of `Run` after the optional sort: start the goroutines, let them
run along `sched`, and return `firstEncounteredError` once `wg.Wait()`
returns; `none` when `sched` ends before every goroutine has returned. -/
def runNodes (wf : Workflow) (sched : List Ptr) : Option RunResult :=
  let s := runSchedule wf.semCap (initRun wf) sched
  if wf.Nodes.all (fun n => decide (s.pc n = .finished)) = true then some (finish wf s)
  else none

/-- Lines 80 to 86 of `Run`: with `useTopologicalSort`, `wf.Nodes` is replaced
by the sorted list, or the error of the sort is handed on. -/
def sortNodes (wf : Workflow) (useTopologicalSort : Bool) : Option (Except GoError Workflow) :=
  if useTopologicalSort = true then
    match topologicalSort wf with
    | none => none
    | some (.error err) => some (.error err)
    | some (.ok sortedNodes) => some (.ok { wf with Nodes := sortedNodes })
  else some (.ok wf)

/-- The method `Run`.  `none` when `sched` is not a complete execution (or
the bound of `topologicalSort` was reached). -/
def Run (wf : Workflow) (useTopologicalSort : Bool) (sched : List Ptr) : Option RunResult :=
  match sortNodes wf useTopologicalSort with
  | none => none
  | some (.error err) => some { err := some err, wf := wf, invoked := [] }
  | some (.ok wf1) => runNodes wf1 sched

/-! ## Graph export -/

/-- The colour chosen in the first loop of `ToDOT`. -/
def nodeColor (node : Node) : String :=
  if node.Error ≠ none then "red"
  else if node.State = .Running then "green"
  else if node.State = .Completed then "blue"
  else "gray"

/-- The function `getFunctionName`. -/
def getFunctionName (fn : Func) : String := fn.name

/-- The text `fmt.Sprintf("    node%d [label=\"%s\", color=%s, style=filled];\n", ...)`. -/
def nodeStatement (node : Node) : String :=
  "    node" ++ toString node.Id ++ " [label=\"" ++ getFunctionName node.Fn ++ "\", color="
    ++ nodeColor node ++ ", style=filled];\n"

/-- The text `fmt.Sprintf("    node%d -> node%d;\n", req.Id, node.Id)`. -/
def edgeStatement (req node : Node) : String :=
  "    node" ++ toString req.Id ++ " -> node" ++ toString node.Id ++ ";\n"

/-- The method `ToDOT`. -/
def ToDOT (wf : Workflow) : String :=
  let dot := "digraph G \x7b\n"
  let dot := wf.Nodes.foldl (fun dot node => dot ++ nodeStatement (wf.heap node)) dot
  let dot := wf.Nodes.foldl
    (fun dot node =>
      (wf.heap node).Requires.foldl
        (fun dot req => dot ++ edgeStatement (wf.heap req) (wf.heap node)) dot)
    dot
  dot ++ "\x7d"

/-! ## Predicates used in the statements -/

/-- Workflows as the API builds them: `NewWorkflow`, then `CreateNode` (the
allocator returns an address not in use) and `AddDependency` between nodes
of the workflow. -/
inductive Built : Workflow → Prop
  | newWorkflow (concurrency : Int) (debug : Bool) (wf : Workflow) :
      NewWorkflow concurrency debug = .ok wf → Built wf
  | createNode (wf : Workflow) (p : Ptr) (fn : Func) (args : List Value) :
      Built wf → p ∉ wf.Nodes → Built (CreateNode wf p fn args).1
  | addDependency (wf : Workflow) (node : Ptr) (dependencies : List Ptr) :
      Built wf → node ∈ wf.Nodes → (∀ d ∈ dependencies, d ∈ wf.Nodes) →
      Built (AddDependency wf node dependencies)

/-- The dependency relation: `d` is listed in `n.Requires`. -/
def Dep (wf : Workflow) (n d : Ptr) : Prop := d ∈ (wf.heap n).Requires

/-- The dependency relation contains a cycle through a node of the workflow
(a node that requires itself is a cycle of length one). -/
def HasCycle (wf : Workflow) : Prop :=
  ∃ n ∈ wf.Nodes, Relation.TransGen (Dep wf) n n

/-- What `Run` relies on, and what every built workflow provides: the nodes
are distinct and have distinct ids, every dependency is a node of the
workflow, no node has run yet, and the semaphore is empty with a positive
capacity. -/
structure WellFormed (wf : Workflow) : Prop where
  nodup : wf.Nodes.Nodup
  idInj : ∀ p ∈ wf.Nodes, ∀ q ∈ wf.Nodes, (wf.heap p).Id = (wf.heap q).Id → p = q
  closed : ∀ p ∈ wf.Nodes, ∀ d ∈ (wf.heap p).Requires, d ∈ wf.Nodes
  fresh : ∀ p ∈ wf.Nodes, (wf.heap p).Error = none ∧ (wf.heap p).Done = false ∧
    (wf.heap p).State = .Pending ∧ (wf.heap p).Result = .nil
  semEmpty : wf.semLen = 0
  semPos : 0 < wf.semCap

/-- A list in which every node comes after all the nodes it requires. -/
inductive Topo (wf : Workflow) : List Ptr → Prop
  | nil : Topo wf []
  | snoc (l : List Ptr) (b : Ptr) :
      Topo wf l → (∀ d ∈ (wf.heap b).Requires, d ∈ l) → Topo wf (l ++ [b])

/-- Position of node `p` in `l` (the length of `l` when absent). -/
def position (l : List Ptr) (p : Ptr) : Nat := l.indexOf p

/-! ## Invariants of the topological sort -/

/-- Number of nodes of the workflow not yet marked in `visited`. -/
def unvisited (wf : Workflow) (st : SortState) : Nat :=
  wf.Nodes.countP (fun p => st.visited (wf.heap p).Id = false)

/-- What holds between two calls of `visit`. -/
structure SortInv (wf : Workflow) (st : SortState) : Prop where
  recVis : ∀ p ∈ wf.Nodes, st.recStack (wf.heap p).Id = true → st.visited (wf.heap p).Id = true
  stackIff : ∀ p ∈ wf.Nodes,
    (p ∈ st.stack ↔ st.visited (wf.heap p).Id = true ∧ st.recStack (wf.heap p).Id = false)
  stackSub : ∀ p ∈ st.stack, p ∈ wf.Nodes
  stackNodup : st.stack.Nodup
  topo : Topo wf st.stack

/-- What a call of `visit`, or a run of one of the loops, guarantees. -/
def SortPost (wf : Workflow) (st : SortState) : Except GoError SortState → Prop
  | .ok st1 =>
    SortInv wf st1 ∧
    (∀ p ∈ wf.Nodes, st.visited (wf.heap p).Id = true → st1.visited (wf.heap p).Id = true) ∧
    (∀ p ∈ wf.Nodes, st1.recStack (wf.heap p).Id = st.recStack (wf.heap p).Id)
  | .error e => e = cycleError ∧ HasCycle wf

/-! ## Invariants of a run -/

/-- Program points at which the goroutine holds a slot of `wf.sem`. -/
def PC.holding : PC → Bool
  | .execStart => true
  | .execBody => true
  | .closeDone => true
  | .release => true
  | _ => false

/-- Program points at which the goroutine holds `errorLock`. -/
def PC.locking : PC → Bool
  | .captureWrite => true
  | .captureUnlock => true
  | _ => false

/-- Dependency `d` has closed `Done` and carries no error. -/
def DepOk (heap : Ptr → Node) (d : Ptr) : Prop :=
  (heap d).Done = true ∧ (heap d).Error = none

/-- The first `i` requirements of `p` have closed `Done` and carry no error. -/
def PrefixOk (heap : Ptr → Node) (p : Ptr) (i : Nat) : Prop :=
  ∀ j, j < i → ∀ d, (heap p).Requires[j]? = some d → DepOk heap d

/-- Every requirement of `p` has closed `Done` and carries no error. -/
def AllOk (heap : Ptr → Node) (p : Ptr) : Prop :=
  ∀ d ∈ (heap p).Requires, DepOk heap d

/-- Node `p` is as `CreateNode` left it. -/
def Untouched (heap : Ptr → Node) (p : Ptr) : Prop :=
  (heap p).Error = none ∧ (heap p).Done = false ∧ (heap p).State = .Pending ∧
    (heap p).Result = .nil

/-- Node `p` took the early return of line 103: requirement number `i` is the
first one that carries an error, and `p` wraps it without having run. -/
def BlockedBy (heap : Ptr → Node) (p : Ptr) : Prop :=
  ∃ i req e, (heap p).Requires[i]? = some req ∧ (heap req).Done = true ∧
    (heap req).Error = some e ∧ PrefixOk heap p i ∧
    (heap p).Error = some (.depError (heap req).Id e) ∧
    (heap p).State = .Pending ∧ (heap p).Result = .nil

/-- Node `p` went through `executeNode`: it left `Pending`, it is `Completed`
unless it carries an error, and none of its requirements carried one. -/
def Executed (heap : Ptr → Node) (p : Ptr) : Prop :=
  (heap p).State ≠ .Pending ∧ ((heap p).Error = none → (heap p).State = .Completed) ∧
    AllOk heap p

/-- What is known about node `p` at each program point of its goroutine. -/
def NodeInv (s : RunState) (p : Ptr) : Prop :=
  match s.pc p with
  | .waitDep i =>
    Untouched s.heap p ∧ i ≤ (s.heap p).Requires.length ∧ PrefixOk s.heap p i
  | .checkDep i req =>
    Untouched s.heap p ∧ (s.heap p).Requires[i]? = some req ∧ (s.heap req).Done = true ∧
      PrefixOk s.heap p i
  | .closeBlocked => BlockedBy s.heap p ∧ (s.heap p).Done = false
  | .acquire => Untouched s.heap p ∧ AllOk s.heap p
  | .execStart => Untouched s.heap p ∧ AllOk s.heap p
  | .execBody =>
    (s.heap p).State = .Running ∧ (s.heap p).Error = none ∧ (s.heap p).Result = .nil ∧
      (s.heap p).Done = false ∧ AllOk s.heap p
  | .closeDone => Executed s.heap p ∧ (s.heap p).Done = false
  | .release => Executed s.heap p ∧ (s.heap p).Done = true
  | .captureCheck => Executed s.heap p ∧ (s.heap p).Done = true
  | .captureLock => Executed s.heap p ∧ (s.heap p).Done = true ∧ (s.heap p).Error ≠ none
  | .captureWrite => Executed s.heap p ∧ (s.heap p).Done = true ∧ (s.heap p).Error ≠ none
  | .captureUnlock =>
    Executed s.heap p ∧ (s.heap p).Done = true ∧ s.firstEncounteredError ≠ none
  | .finished =>
    (s.heap p).Done = true ∧
      (BlockedBy s.heap p ∨
        (Executed s.heap p ∧
          ((s.heap p).Error ≠ none → s.firstEncounteredError ≠ none)))

/-- The invariant of `Run` on the workflow `wf`: it holds when the goroutines
are started and after every step of every goroutine. -/
structure RunInv (wf : Workflow) (s : RunState) : Prop where
  frame : ∀ p, (s.heap p).Requires = (wf.heap p).Requires ∧ (s.heap p).Id = (wf.heap p).Id
  outside : ∀ p, p ∉ wf.Nodes → s.pc p = .finished
  node : ∀ p ∈ wf.Nodes, NodeInv s p
  invoked : ∀ p ∈ s.invoked, p ∈ wf.Nodes ∧ (s.heap p).State ≠ .Pending
  first : ∀ e, s.firstEncounteredError = some e →
    ∃ p ∈ wf.Nodes, (s.heap p).Error = some e ∧ (s.heap p).Done = true
  sem : s.semLen = wf.Nodes.countP (fun p => (s.pc p).holding)
  semCap : s.semLen ≤ wf.semCap
  lock : wf.Nodes.countP (fun p => (s.pc p).locking) = if s.errorLock = true then 1 else 0
  noNew : ∀ p ∈ wf.Nodes, ∀ msg, (s.heap p).Error ≠ some (.new msg)

/-- The graph of `step`, one constructor per way a goroutine can move. -/
inductive Step (cap : Nat) (s : RunState) (n : Ptr) : RunState → Prop
  | loopEnd (i : Nat) : s.pc n = .waitDep i → (s.heap n).Requires[i]? = none →
      Step cap s n (s.goto n .acquire)
  | received (i : Nat) (req : Ptr) : s.pc n = .waitDep i →
      (s.heap n).Requires[i]? = some req → (s.heap req).Done = true →
      Step cap s n (s.goto n (.checkDep i req))
  | depFailed (i : Nat) (req : Ptr) (e : GoError) : s.pc n = .checkDep i req →
      (s.heap req).Error = some e →
      Step cap s n
        ((s.store n { s.heap n with Error := some (.depError (s.heap req).Id e) }).goto n
          .closeBlocked)
  | depPassed (i : Nat) (req : Ptr) : s.pc n = .checkDep i req → (s.heap req).Error = none →
      Step cap s n (s.goto n (.waitDep (i + 1)))
  | blockedClosed : s.pc n = .closeBlocked → (s.heap n).Done = false →
      Step cap s n ((s.store n { s.heap n with Done := true }).goto n .finished)
  | acquired : s.pc n = .acquire → s.semLen < cap →
      Step cap s n ({ s with semLen := s.semLen + 1 }.goto n .execStart)
  | entered : s.pc n = .execStart →
      Step cap s n ((s.store n (executeNodeBegin (s.heap n))).goto n .execBody)
  | executed : s.pc n = .execBody →
      Step cap s n
        (({ s with
              invoked :=
                if (executeNodeBody s.heap n).2 = true then s.invoked ++ [n]
                else s.invoked }.store n (executeNodeBody s.heap n).1).goto n .closeDone)
  | closed : s.pc n = .closeDone → (s.heap n).Done = false →
      Step cap s n ((s.store n { s.heap n with Done := true }).goto n .release)
  | released : s.pc n = .release → s.semLen ≠ 0 →
      Step cap s n ({ s with semLen := s.semLen - 1 }.goto n .captureCheck)
  | mustCapture : s.pc n = .captureCheck → (s.heap n).Error ≠ none →
      s.firstEncounteredError = none → Step cap s n (s.goto n .captureLock)
  | skipCapture : s.pc n = .captureCheck →
      ((s.heap n).Error = none ∨ s.firstEncounteredError ≠ none) →
      Step cap s n (s.goto n .finished)
  | locked : s.pc n = .captureLock → s.errorLock = false →
      Step cap s n ({ s with errorLock := true }.goto n .captureWrite)
  | wrote : s.pc n = .captureWrite →
      Step cap s n
        ({ s with
            firstEncounteredError :=
              if s.firstEncounteredError = none then (s.heap n).Error
              else s.firstEncounteredError }.goto n .captureUnlock)
  | unlocked : s.pc n = .captureUnlock →
      Step cap s n ({ s with errorLock := false }.goto n .finished)

/-- Every goroutine has returned: `wg.Wait()` returns. -/
def AllFinished (wf : Workflow) (s : RunState) : Prop :=
  ∀ n ∈ wf.Nodes, s.pc n = .finished

/-- How far a goroutine of a node with `len` requirements has come; every
step raises it. -/
def PC.rank (len : Nat) : PC → Nat
  | .waitDep i => 2 * i
  | .checkDep i _ => 2 * i + 1
  | .closeBlocked => 2 * len + 2
  | .acquire => 2 * len + 2
  | .execStart => 2 * len + 3
  | .execBody => 2 * len + 4
  | .closeDone => 2 * len + 5
  | .release => 2 * len + 6
  | .captureCheck => 2 * len + 7
  | .captureLock => 2 * len + 8
  | .captureWrite => 2 * len + 9
  | .captureUnlock => 2 * len + 10
  | .finished => 2 * len + 11

/-- Sum of the ranks of all goroutines. -/
def progress (wf : Workflow) (s : RunState) : Nat :=
  (wf.Nodes.map (fun p => (s.pc p).rank (wf.heap p).Requires.length)).sum

/-- The value of `progress` when every goroutine has returned. -/
def progressBound (wf : Workflow) : Nat :=
  (wf.Nodes.map (fun p => 2 * (wf.heap p).Requires.length + 11)).sum

/-- The error of node `n` leads back to the error of a node that went through
`executeNode`, along `dependency error` wrappers. -/
inductive ErrorChain (heap : Ptr → Node) : Ptr → GoError → Prop
  | root (g : Ptr) (e : GoError) : (heap g).State ≠ .Pending → (heap g).Error = some e →
      ErrorChain heap g e
  | wrap (n d : Ptr) (e : GoError) : d ∈ (heap n).Requires → ErrorChain heap d e →
      (heap n).Error = some (.depError (heap d).Id e) →
      ErrorChain heap n (.depError (heap d).Id e)

/-! ## Example workflows -/

/-- A task without parameters that returns `(result, nil)`. -/
def succeedingTask (name result : String) : Func :=
  { name := name, inTypes := [], call := fun _ => .returned [.str result, .nil] }

/-- A task without parameters that returns `("", errors.New(msg))`. -/
def failingTask (name msg : String) : Func :=
  { name := name, inTypes := [], call := fun _ => .returned [.str "", .err msg] }

/-- The workflow `NewWorkflow(2, false)` returns. -/
def emptyWf : Workflow :=
  { Nodes := [], CurrentNodeID := 0, semCap := 2, semLen := 0, Debug := false,
    heap := fun _ => Node.blank }

/-- Two nodes: `A` (address 0) succeeds, `B` (address 1) requires `A`. -/
def chainWf : Workflow :=
  AddDependency
    (CreateNode (CreateNode emptyWf 0 (succeedingTask "main.A" "a") []).1 1
      (succeedingTask "main.B" "b") []).1
    1 [0]

/-- Two nodes: `A` (address 0) reports a failure, `B` (address 1) requires `A`. -/
def failingWf : Workflow :=
  AddDependency
    (CreateNode (CreateNode emptyWf 0 (failingTask "main.A" "boom") []).1 1
      (succeedingTask "main.B" "b") []).1
    1 [0]

/-- Two nodes that require each other. -/
def cyclicWf : Workflow :=
  AddDependency
    (AddDependency
      (CreateNode (CreateNode emptyWf 0 (succeedingTask "main.A" "a") []).1 1
        (succeedingTask "main.B" "b") []).1
      1 [0])
    0 [1]

/-- The schedule that lets the goroutines of `nodes` take turns, `rounds`
times over. -/
def roundRobin (nodes : List Ptr) (rounds : Nat) : List Ptr :=
  (List.replicate rounds nodes).flatten

/-- A task without parameters whose call panics with `r`. -/
def panickingTask (name r : String) : Func :=
  { name := name, inTypes := [], call := fun _ => .panicked r }

/-- One node (address 0) whose task panics. -/
def panicWf : Workflow :=
  (CreateNode emptyWf 0 (panickingTask "main.P" "oops") []).1

/-- State of `failingWf` after twelve rounds of both goroutines, handed back
by `Run`. -/
def failingRun : RunResult :=
  finish failingWf (runSchedule 2 (initRun failingWf) (roundRobin [0, 1] 12))

/-- State of `panicWf` after twelve steps of its goroutine, handed back by
`Run`. -/
def panicRun : RunResult :=
  finish panicWf (runSchedule 2 (initRun panicWf) (roundRobin [0] 12))

/-! ## Graph export: the text as a list of statements -/

/-- The pieces written one after another. -/
def concatAll : List String → String
  | [] => ""
  | piece :: rest => piece ++ concatAll rest

/-- The colour the specification assigns to a state: gray for `Pending`,
green for `Running`, blue for `Completed`, red for `Errored`. -/
def specColor : NodeState → String
  | .Pending => "gray"
  | .Running => "green"
  | .Completed => "blue"
  | .Errored => "red"

/-- The edge statements of `ToDOT`: nodes in `wf.Nodes` order, and for each
node its requirements in declaration order. -/
def edgeStatements (wf : Workflow) : List String :=
  wf.Nodes.flatMap (fun node =>
    (wf.heap node).Requires.map (fun req => edgeStatement (wf.heap req) (wf.heap node)))

/-! ## Argument binding as the specification words it -/

/-- Slot by slot, as the specification describes the binding: an empty slot
(one that holds the zero value of its type) receives the result of the first
dependency, in declaration order, whose result has the slot's parameter
type; every other slot keeps its value. -/
def specBindArgs (heap : Ptr → Node) (deps : List Ptr) : List GoType → List Value → List Value
  | t :: ts, a :: args =>
    (if a.isZero = some true then
      match deps.find? (fun d => decide ((heap d).Result.typeOf = .param t)) with
      | some d => (heap d).Result
      | none => a
    else a) :: specBindArgs heap deps ts args
  | _, args => args

/-- Slot `k + j` does not take `result`: its parameter type is not the type
of `result`, or it holds a value that is not the zero value of its type. -/
def PassedOver (result : Value) (ts : List GoType) (args : List Value) (k j : Nat) : Prop :=
  ∀ t, ts[j]? = some t → result.typeOf = .param t →
    ∃ a, args[k + j]? = some a ∧ a.isZero = some false

/-- A task with two string parameters. -/
def twoSlotTask : Func :=
  { name := "main.Join", inTypes := [.string, .string],
    call := fun _ => .returned [.str "joined", .nil] }

/-- Two nodes: `A` (address 0) returns the string `x`; `Join` (address 1) has
two string parameters, no preset argument, and requires `A`. -/
def twoSlotWf : Workflow :=
  AddDependency
    (CreateNode (CreateNode emptyWf 0 (succeedingTask "main.A" "x") []).1 1 twoSlotTask []).1
    1 [0]

/-- State of `twoSlotWf` after sixteen rounds of both goroutines, handed back
by `Run`. -/
def twoSlotRun : RunResult :=
  finish twoSlotWf (runSchedule 2 (initRun twoSlotWf) (roundRobin [0, 1] 16))

/-- Two nodes: `A` (address 0) returns the string `x`; `Join` (address 1) has
two string parameters, was created with the preset argument `nil`, and
requires `A`. -/
def nilSlotWf : Workflow :=
  AddDependency
    (CreateNode (CreateNode emptyWf 0 (succeedingTask "main.A" "x") []).1 1 twoSlotTask
      [.nil]).1
    1 [0]

/-- State of `nilSlotWf` after twenty rounds of both goroutines, handed back
by `Run`. -/
def nilSlotRun : RunResult :=
  finish nilSlotWf (runSchedule 2 (initRun nilSlotWf) (roundRobin [0, 1] 20))

/-! # Verification -/

/-! ## Construction -/

/-- C8. `NewWorkflow(concurrency, debug)` fails exactly when `concurrency <= 0`;
for a positive `concurrency` it returns a workflow with no nodes, next id 0,
the given debug flag and an empty semaphore of capacity `concurrency`; in
particular `NewWorkflow(0, false)` fails. -/
theorem NewWorkflow_spec (concurrency : Int) (debug : Bool) :
    ((∃ e, NewWorkflow concurrency debug = .error e) ↔ concurrency ≤ 0) ∧
    (0 < concurrency →
      ∃ wf, NewWorkflow concurrency debug = .ok wf ∧ wf.Nodes = [] ∧ wf.CurrentNodeID = 0 ∧
        wf.Debug = debug ∧ (wf.semCap : Int) = concurrency ∧ wf.semLen = 0) ∧
    (∃ e, NewWorkflow 0 false = .error e) := by
  refine ⟨?_, ?_, ?_⟩
  · constructor
    · rintro ⟨e, he⟩
      by_contra hc
      simp [NewWorkflow, hc] at he
    · intro hc
      exact ⟨.new "concurrency limit must be greater than 0", by simp [NewWorkflow, hc]⟩
  · intro hc
    refine ⟨{ Nodes := [], CurrentNodeID := 0, semCap := concurrency.toNat, semLen := 0,
              Debug := debug, heap := fun _ => Node.blank }, ?_, rfl, rfl, rfl, ?_, rfl⟩
    · simp [NewWorkflow, not_le.mpr hc]
    · exact Int.toNat_of_nonneg hc.le
  · exact ⟨.new "concurrency limit must be greater than 0", by simp [NewWorkflow]⟩

/-! ## Construction gives well-formed workflows -/

theorem Built.wellFormed_aux (wf : Workflow) (h : Built wf) :
    WellFormed wf ∧ ∀ p ∈ wf.Nodes, (wf.heap p).Id < wf.CurrentNodeID := by
  induction h with
  | newWorkflow concurrency debug wf hnew =>
    by_cases hc : concurrency ≤ 0
    · simp [NewWorkflow, hc] at hnew
    · simp only [NewWorkflow, hc, if_false, Except.ok.injEq] at hnew
      subst hnew
      refine ⟨⟨List.nodup_nil, ?_, ?_, ?_, rfl, ?_⟩, ?_⟩
      · intro p hp; simp at hp
      · intro p hp; simp at hp
      · intro p hp; simp at hp
      · show 0 < concurrency.toNat
        omega
      · intro p hp; simp at hp
  | createNode wf p fn args _ hp ih =>
    obtain ⟨hwf, hid⟩ := ih
    have hne : ∀ q ∈ wf.Nodes, q ≠ p := fun q hq h => hp (h ▸ hq)
    refine ⟨⟨?_, ?_, ?_, ?_, hwf.semEmpty, hwf.semPos⟩, ?_⟩
    · show (wf.Nodes ++ [p]).Nodup
      exact List.Nodup.append hwf.nodup (List.nodup_singleton _) (by simpa using hp)
    · intro a ha b hb hab
      simp only [CreateNode, List.mem_append, List.mem_singleton] at ha hb hab
      rcases ha with ha | rfl <;> rcases hb with hb | rfl
      · rw [Function.update_noteq (hne a ha), Function.update_noteq (hne b hb)] at hab
        exact hwf.idInj a ha b hb hab
      · rw [Function.update_noteq (hne a ha), Function.update_same] at hab
        have := hid a ha
        simp only at hab
        omega
      · rw [Function.update_noteq (hne b hb), Function.update_same] at hab
        have := hid b hb
        simp only at hab
        omega
      · rfl
    · intro a ha d hd
      simp only [CreateNode, List.mem_append, List.mem_singleton] at ha hd ⊢
      rcases ha with ha | rfl
      · rw [Function.update_noteq (hne a ha)] at hd
        exact Or.inl (hwf.closed a ha d hd)
      · rw [Function.update_same] at hd
        simp at hd
    · intro a ha
      simp only [CreateNode, List.mem_append, List.mem_singleton] at ha ⊢
      rcases ha with ha | rfl
      · rw [Function.update_noteq (hne a ha)]
        exact hwf.fresh a ha
      · rw [Function.update_same]
        exact ⟨rfl, rfl, rfl, rfl⟩
    · intro a ha
      simp only [CreateNode, List.mem_append, List.mem_singleton] at ha ⊢
      rcases ha with ha | rfl
      · rw [Function.update_noteq (hne a ha)]
        have := hid a ha
        omega
      · rw [Function.update_same]
        simp
  | addDependency wf node deps _ hnode hdeps ih =>
    obtain ⟨hwf, hid⟩ := ih
    have hId : ∀ q, ((AddDependency wf node deps).heap q).Id = (wf.heap q).Id := by
      intro q
      by_cases hq : q = node
      · subst hq; simp [AddDependency]
      · simp [AddDependency, Function.update_noteq hq]
    have hfr : ∀ q, ((AddDependency wf node deps).heap q).Error = (wf.heap q).Error ∧
        ((AddDependency wf node deps).heap q).Done = (wf.heap q).Done ∧
        ((AddDependency wf node deps).heap q).State = (wf.heap q).State ∧
        ((AddDependency wf node deps).heap q).Result = (wf.heap q).Result := by
      intro q
      by_cases hq : q = node
      · subst hq; simp [AddDependency]
      · simp [AddDependency, Function.update_noteq hq]
    refine ⟨⟨hwf.nodup, ?_, ?_, ?_, hwf.semEmpty, hwf.semPos⟩, ?_⟩
    · intro a ha b hb hab
      rw [hId, hId] at hab
      exact hwf.idInj a ha b hb hab
    · intro a ha d hd
      show d ∈ wf.Nodes
      have ha' : a ∈ wf.Nodes := ha
      by_cases han : a = node
      · subst han
        simp only [AddDependency, Function.update_same, List.mem_append] at hd
        rcases hd with hd | hd
        · exact hwf.closed a ha' d hd
        · exact hdeps d hd
      · simp only [AddDependency, Function.update_noteq han] at hd
        exact hwf.closed a ha' d hd
    · intro a ha
      obtain ⟨h1, h2, h3, h4⟩ := hfr a
      rw [h1, h2, h3, h4]
      exact hwf.fresh a ha
    · intro a ha
      rw [hId]
      exact hid a ha

/-- Every workflow built through the API is well formed. -/
theorem Built.wellFormed (wf : Workflow) (h : Built wf) : WellFormed wf :=
  (Built.wellFormed_aux wf h).1

/-! ## Topological sort: cycle detection -/

theorem countP_lt_of_witness {α : Type} (l : List α) (p q : α → Bool)
    (hpq : ∀ x ∈ l, p x = true → q x = true) (a : α) (ha : a ∈ l) (hqa : q a = true)
    (hpa : p a = false) : l.countP p < l.countP q := by
  induction l with
  | nil => simp at ha
  | cons x xs ih =>
    have hmono : xs.countP p ≤ xs.countP q :=
      List.countP_mono_left (fun y hy => hpq y (List.mem_cons_of_mem _ hy))
    rcases List.mem_cons.mp ha with rfl | hmem
    · simp only [List.countP_cons, hqa, hpa]
      simp
      omega
    · have := ih (fun y hy => hpq y (List.mem_cons_of_mem _ hy)) hmem
      simp only [List.countP_cons]
      have hx := hpq x (List.mem_cons_self _ _)
      by_cases hp : p x = true
      · simp [hp, hx hp]; omega
      · by_cases hq : q x = true
        · simp [hp, hq]; omega
        · simp [hp, hq]; omega

theorem topo_closed_acyclic (wf : Workflow) (l : List Ptr) (h : Topo wf l) :
    (∀ p ∈ l, ∀ q, Relation.ReflTransGen (Dep wf) p q → q ∈ l) ∧
    (∀ p ∈ l, ¬ Relation.TransGen (Dep wf) p p) := by
  induction h with
  | nil => simp
  | snoc l b _ hb ih =>
    obtain ⟨hcl, hac⟩ := ih
    have hreach : ∀ q, Relation.ReflTransGen (Dep wf) b q → q = b ∨ q ∈ l := by
      intro q hq
      rcases Relation.ReflTransGen.cases_head hq with h | ⟨d, hd, hdq⟩
      · exact Or.inl h.symm
      · exact Or.inr (hcl d (hb d hd) q hdq)
    constructor
    · intro p hp q hq
      rcases List.mem_append.mp hp with hp | hp
      · exact List.mem_append_left _ (hcl p hp q hq)
      · have : p = b := by simpa using hp
        subst this
        rcases hreach q hq with h | h
        · subst h; simp
        · exact List.mem_append_left _ h
    · intro p hp hcyc
      rcases List.mem_append.mp hp with hp | hp
      · exact hac p hp hcyc
      · have : p = b := by simpa using hp
        subst this
        obtain ⟨d, hd, hdp⟩ := Relation.TransGen.head'_iff.mp hcyc
        have hpl : p ∈ l := hcl d (hb d hd) p hdp
        exact hac p hpl hcyc

theorem SortPost.trans_ok (wf : Workflow) (st st1 : SortState) (r : Except GoError SortState)
    (hvis : ∀ p ∈ wf.Nodes, st.visited (wf.heap p).Id = true → st1.visited (wf.heap p).Id = true)
    (hrec : ∀ p ∈ wf.Nodes, st1.recStack (wf.heap p).Id = st.recStack (wf.heap p).Id)
    (h : SortPost wf st1 r) : SortPost wf st r := by
  cases r with
  | error e => exact h
  | ok st2 =>
    obtain ⟨hinv, hv, hr⟩ := h
    exact ⟨hinv, fun p hp hpv => hv p hp (hvis p hp hpv),
      fun p hp => (hr p hp).trans (hrec p hp)⟩

theorem unvisited_mono (wf : Workflow) (st st1 : SortState)
    (hvis : ∀ p ∈ wf.Nodes, st.visited (wf.heap p).Id = true → st1.visited (wf.heap p).Id = true) :
    unvisited wf st1 ≤ unvisited wf st := by
  unfold unvisited
  apply List.countP_mono_left
  intro p hp h1
  have h1' : st1.visited (wf.heap p).Id = false := by simpa using h1
  cases h : st.visited (wf.heap p).Id with
  | false => simp
  | true => rw [hvis p hp h] at h1'; cases h1'

/-- The loop over `node.Requires` inside `visit`, for a callee `self` that
meets the contract of `visit`. -/
theorem visitRequires_spec (wf : Workflow) (fuel : Nat) (node : Ptr)
    (self : Ptr → SortState → Option (Except GoError SortState))
    (hself : ∀ req st, req ∈ wf.Nodes → SortInv wf st → st.visited (wf.heap req).Id = false →
      (∀ g ∈ wf.Nodes, st.recStack (wf.heap g).Id = true → Relation.TransGen (Dep wf) g req) →
      unvisited wf st ≤ fuel →
      ∃ r, self req st = some r ∧ SortPost wf st r ∧
        ∀ st1, r = .ok st1 → st1.visited (wf.heap req).Id = true)
    (hnode : node ∈ wf.Nodes)
    (hclosed : ∀ p ∈ wf.Nodes, ∀ d ∈ (wf.heap p).Requires, d ∈ wf.Nodes)
    (rest : List Ptr) (hrest : ∀ d ∈ rest, d ∈ (wf.heap node).Requires)
    (st : SortState) (hinv : SortInv wf st)
    (hgray : ∀ g ∈ wf.Nodes, st.recStack (wf.heap g).Id = true →
      Relation.ReflTransGen (Dep wf) g node)
    (hfuel : unvisited wf st ≤ fuel) :
    ∃ r, visitRequires wf.heap self rest st = some r ∧ SortPost wf st r ∧
      ∀ st1, r = .ok st1 → ∀ d ∈ rest,
        st1.visited (wf.heap d).Id = true ∧ st1.recStack (wf.heap d).Id = false := by
  induction rest generalizing st with
  | nil =>
    refine ⟨.ok st, rfl, ⟨hinv, fun _ _ h => h, fun _ _ => rfl⟩, ?_⟩
    intro st1 _ d hd
    simp at hd
  | cons req rest ih =>
    have hreqDep : req ∈ (wf.heap node).Requires := hrest req (List.mem_cons_self _ _)
    have hreqN : req ∈ wf.Nodes := hclosed node hnode req hreqDep
    have hrest' : ∀ d ∈ rest, d ∈ (wf.heap node).Requires :=
      fun d hd => hrest d (List.mem_cons_of_mem _ hd)
    by_cases hv : st.visited (wf.heap req).Id = false
    · -- recursive call
      have hgray' : ∀ g ∈ wf.Nodes, st.recStack (wf.heap g).Id = true →
          Relation.TransGen (Dep wf) g req :=
        fun g hg hr => Relation.TransGen.tail' (hgray g hg hr) hreqDep
      obtain ⟨r, hr, hpost, hvis⟩ := hself req st hreqN hinv hv hgray' hfuel
      cases r with
      | error e =>
        refine ⟨.error e, ?_, hpost, ?_⟩
        · simp [visitRequires, hv, hr]
        · intro st1 h; cases h
      | ok st1 =>
        obtain ⟨hinv1, hv1, hr1⟩ := hpost
        have hgray1 : ∀ g ∈ wf.Nodes, st1.recStack (wf.heap g).Id = true →
            Relation.ReflTransGen (Dep wf) g node :=
          fun g hg h => hgray g hg (by rw [← hr1 g hg]; exact h)
        have hfuel1 : unvisited wf st1 ≤ fuel :=
          le_trans (unvisited_mono wf st st1 hv1) hfuel
        obtain ⟨r2, hr2, hpost2, hblack⟩ := ih hrest' st1 hinv1 hgray1 hfuel1
        refine ⟨r2, ?_, SortPost.trans_ok wf st st1 r2 hv1 hr1 hpost2, ?_⟩
        · simp [visitRequires, hv, hr, hr2]
        · intro st2 h2 d hd
          rcases List.mem_cons.mp hd with rfl | hd
          · subst h2
            obtain ⟨_, hv2, hrec2⟩ := hpost2
            refine ⟨hv2 d hreqN (hvis st1 rfl), ?_⟩
            rw [hrec2 d hreqN, hr1 d hreqN]
            cases hrd : st.recStack (wf.heap d).Id with
            | false => rfl
            | true => rw [hinv.recVis d hreqN hrd] at hv; cases hv
          · exact hblack st2 h2 d hd
    · have hv' : st.visited (wf.heap req).Id = true := by simpa using hv
      by_cases hrs : st.recStack (wf.heap req).Id = true
      · refine ⟨.error cycleError, ?_, ⟨rfl, node, hnode, ?_⟩, ?_⟩
        · simp [visitRequires, hv', hrs]
        · exact Relation.TransGen.head' hreqDep (hgray req hreqN hrs)
        · intro st1 h; cases h
      · have hrs' : st.recStack (wf.heap req).Id = false := by simpa using hrs
        obtain ⟨r2, hr2, hpost2, hblack⟩ := ih hrest' st hinv hgray hfuel
        refine ⟨r2, ?_, hpost2, ?_⟩
        · simp [visitRequires, hv', hrs', hr2]
        · intro st2 h2 d hd
          rcases List.mem_cons.mp hd with rfl | hd
          · subst h2
            obtain ⟨_, hv2, hrec2⟩ := hpost2
            exact ⟨hv2 d hreqN hv', by rw [hrec2 d hreqN]; exact hrs'⟩
          · exact hblack st2 h2 d hd

/-- The closure `visit` meets its contract when called on an unvisited node. -/
theorem visit_spec (wf : Workflow)
    (hinj : ∀ p ∈ wf.Nodes, ∀ q ∈ wf.Nodes, (wf.heap p).Id = (wf.heap q).Id → p = q)
    (hclosed : ∀ p ∈ wf.Nodes, ∀ d ∈ (wf.heap p).Requires, d ∈ wf.Nodes) :
    ∀ (fuel : Nat) (node : Ptr) (st : SortState), node ∈ wf.Nodes → SortInv wf st →
      st.visited (wf.heap node).Id = false →
      (∀ g ∈ wf.Nodes, st.recStack (wf.heap g).Id = true → Relation.TransGen (Dep wf) g node) →
      unvisited wf st ≤ fuel →
      ∃ r, visit wf.heap fuel node st = some r ∧ SortPost wf st r ∧
        ∀ st1, r = .ok st1 → st1.visited (wf.heap node).Id = true := by
  intro fuel
  induction fuel with
  | zero =>
    intro node st hnode _ hv _ hfuel
    exfalso
    have hpos : 0 < unvisited wf st := by
      unfold unvisited
      exact List.countP_pos_iff.mpr ⟨node, hnode, by simpa using hv⟩
    omega
  | succ fuel ih =>
    intro node st hnode hinv hv hgray hfuel
    have hne : ∀ p ∈ wf.Nodes, p ≠ node → (wf.heap p).Id ≠ (wf.heap node).Id :=
      fun p hp hpn h => hpn (hinj p hp node hnode h)
    have hrecNode : st.recStack (wf.heap node).Id = false := by
      cases h : st.recStack (wf.heap node).Id with
      | false => rfl
      | true => rw [hinv.recVis node hnode h] at hv; cases hv
    -- the state after the two marks
    set st1 : SortState :=
      { st with
          visited := Function.update st.visited (wf.heap node).Id true
          recStack := Function.update st.recStack (wf.heap node).Id true } with hst1
    have hvis01 : ∀ p ∈ wf.Nodes, st.visited (wf.heap p).Id = true →
        st1.visited (wf.heap p).Id = true := by
      intro p _ h
      by_cases hp : (wf.heap p).Id = (wf.heap node).Id
      · show Function.update st.visited (wf.heap node).Id true (wf.heap p).Id = true
        rw [hp, Function.update_same]
      · show Function.update st.visited (wf.heap node).Id true (wf.heap p).Id = true
        rw [Function.update_noteq hp, h]
    have hinv1 : SortInv wf st1 := by
      refine ⟨?_, ?_, hinv.stackSub, hinv.stackNodup, hinv.topo⟩
      · intro p hp h
        by_cases hpn : p = node
        · subst hpn; simp [hst1]
        · have := hne p hp hpn
          simp only [hst1, Function.update_noteq this] at h ⊢
          exact hinv.recVis p hp h
      · intro p hp
        by_cases hpn : p = node
        · subst hpn
          have : p ∉ st.stack := fun hmem => by
            have := ((hinv.stackIff p hp).mp hmem).1
            rw [this] at hv; cases hv
          simp [hst1, this]
        · have := hne p hp hpn
          simp only [hst1, Function.update_noteq this]
          exact hinv.stackIff p hp
    have hgray1 : ∀ g ∈ wf.Nodes, st1.recStack (wf.heap g).Id = true →
        Relation.ReflTransGen (Dep wf) g node := by
      intro g hg h
      by_cases hgn : g = node
      · subst hgn; exact Relation.ReflTransGen.refl
      · have := hne g hg hgn
        simp only [hst1, Function.update_noteq this] at h
        exact (hgray g hg h).to_reflTransGen
    have hfuel1 : unvisited wf st1 ≤ fuel := by
      have : unvisited wf st1 < unvisited wf st := by
        unfold unvisited
        apply countP_lt_of_witness _ _ _ _ node hnode
        · simpa using hv
        · simp [hst1]
        · intro p hp h
          have h' : st1.visited (wf.heap p).Id = false := by simpa using h
          cases hp0 : st.visited (wf.heap p).Id with
          | false => simp
          | true => rw [hvis01 p hp hp0] at h'; cases h'
      omega
    obtain ⟨r, hr, hpost, hblack⟩ :=
      visitRequires_spec wf fuel node (visit wf.heap fuel)
        (fun req st' hreq hinv' hv' hg' hf' => ih req st' hreq hinv' hv' hg' hf')
        hnode hclosed (wf.heap node).Requires (fun d hd => hd) st1 hinv1 hgray1 hfuel1
    cases r with
    | error e =>
      refine ⟨.error e, ?_, hpost, ?_⟩
      · simp only [visit]
        rw [← hst1, hr]
      · intro _ h; cases h
    | ok st2 =>
      obtain ⟨hinv2, hv2, hr2⟩ := hpost
      have hblack2 := hblack st2 rfl
      set st3 : SortState :=
        { st2 with
            recStack := Function.update st2.recStack (wf.heap node).Id false
            stack := st2.stack ++ [node] } with hst3
      have hnodeVis2 : st2.visited (wf.heap node).Id = true :=
        hv2 node hnode (by simp [hst1])
      have hnodeRec2 : st2.recStack (wf.heap node).Id = true := by
        rw [hr2 node hnode]; simp [hst1]
      have hnotin : node ∉ st2.stack := fun hmem => by
        have := ((hinv2.stackIff node hnode).mp hmem).2
        rw [this] at hnodeRec2; cases hnodeRec2
      refine ⟨.ok st3, ?_, ⟨?_, ?_, ?_⟩, ?_⟩
      · simp only [visit]
        rw [← hst1, hr]
      · refine ⟨?_, ?_, ?_, ?_, ?_⟩
        · intro p hp h
          by_cases hpn : p = node
          · subst hpn; simp [hst3] at h
          · have := hne p hp hpn
            simp only [hst3, Function.update_noteq this] at h ⊢
            exact hinv2.recVis p hp h
        · intro p hp
          by_cases hpn : p = node
          · subst hpn; simp [hst3, hnodeVis2]
          · have := hne p hp hpn
            simp only [hst3, Function.update_noteq this, List.mem_append, List.mem_singleton,
              hpn, or_false]
            exact hinv2.stackIff p hp
        · intro p hp
          rcases List.mem_append.mp hp with h | h
          · exact hinv2.stackSub p h
          · have : p = node := by simpa using h
            subst this; exact hnode
        · exact List.Nodup.append hinv2.stackNodup (List.nodup_singleton _)
            (by simpa using hnotin)
        · refine Topo.snoc _ _ hinv2.topo ?_
          intro d hd
          have hdN := hclosed node hnode d hd
          exact (hinv2.stackIff d hdN).mpr (hblack2 d hd)
      · intro p hp h
        exact hv2 p hp (hvis01 p hp h)
      · intro p hp
        by_cases hpn : p = node
        · subst hpn; simp [hst3, hrecNode]
        · have := hne p hp hpn
          simp only [hst3, Function.update_noteq this]
          rw [hr2 p hp]
          simp [hst1, Function.update_noteq this]
      · intro st' h
        cases h
        exact hnodeVis2

/-- The loop over `wf.Nodes` in `topologicalSort`. -/
theorem visitNodes_spec (wf : Workflow)
    (hinj : ∀ p ∈ wf.Nodes, ∀ q ∈ wf.Nodes, (wf.heap p).Id = (wf.heap q).Id → p = q)
    (hclosed : ∀ p ∈ wf.Nodes, ∀ d ∈ (wf.heap p).Requires, d ∈ wf.Nodes) (fuel : Nat)
    (rest : List Ptr) (hrest : ∀ n ∈ rest, n ∈ wf.Nodes)
    (st : SortState) (hinv : SortInv wf st)
    (hgray : ∀ g ∈ wf.Nodes, st.recStack (wf.heap g).Id = false)
    (hfuel : unvisited wf st ≤ fuel) :
    ∃ r, visitNodes wf.heap fuel rest st = some r ∧ SortPost wf st r ∧
      ∀ st1, r = .ok st1 → ∀ n ∈ rest, st1.visited (wf.heap n).Id = true := by
  induction rest generalizing st with
  | nil =>
    refine ⟨.ok st, rfl, ⟨hinv, fun _ _ h => h, fun _ _ => rfl⟩, ?_⟩
    intro st1 _ d hd
    simp at hd
  | cons node rest ih =>
    have hnode : node ∈ wf.Nodes := hrest node (List.mem_cons_self _ _)
    have hrest' : ∀ n ∈ rest, n ∈ wf.Nodes := fun n hn => hrest n (List.mem_cons_of_mem _ hn)
    by_cases hv : st.visited (wf.heap node).Id = false
    · have hgray' : ∀ g ∈ wf.Nodes, st.recStack (wf.heap g).Id = true →
          Relation.TransGen (Dep wf) g node := by
        intro g hg h
        rw [hgray g hg] at h; cases h
      obtain ⟨r, hr, hpost, hvis⟩ := visit_spec wf hinj hclosed fuel node st hnode hinv hv hgray' hfuel
      cases r with
      | error e =>
        refine ⟨.error e, ?_, hpost, ?_⟩
        · simp [visitNodes, hv, hr]
        · intro st1 h; cases h
      | ok st1 =>
        obtain ⟨hinv1, hv1, hr1⟩ := hpost
        have hgray1 : ∀ g ∈ wf.Nodes, st1.recStack (wf.heap g).Id = false :=
          fun g hg => by rw [hr1 g hg]; exact hgray g hg
        have hfuel1 : unvisited wf st1 ≤ fuel :=
          le_trans (unvisited_mono wf st st1 hv1) hfuel
        obtain ⟨r2, hr2, hpost2, hall⟩ := ih hrest' st1 hinv1 hgray1 hfuel1
        refine ⟨r2, ?_, SortPost.trans_ok wf st st1 r2 hv1 hr1 hpost2, ?_⟩
        · simp [visitNodes, hv, hr, hr2]
        · intro st2 h2 n hn
          rcases List.mem_cons.mp hn with rfl | hn
          · subst h2
            exact hpost2.2.1 n hnode (hvis st1 rfl)
          · exact hall st2 h2 n hn
    · have hv' : st.visited (wf.heap node).Id = true := by simpa using hv
      obtain ⟨r2, hr2, hpost2, hall⟩ := ih hrest' st hinv hgray hfuel
      refine ⟨r2, ?_, hpost2, ?_⟩
      · simp [visitNodes, hv', hr2]
      · intro st2 h2 n hn
        rcases List.mem_cons.mp hn with rfl | hn
        · subst h2
          exact hpost2.2.1 n hnode hv'
        · exact hall st2 h2 n hn

theorem popAll_eq_reverse (stack : List Ptr) : popAll stack = stack.reverse := by
  induction stack with
  | nil => rfl
  | cons a l ih =>
    simp only [popAll, List.foldr_cons, List.reverse_cons] at ih ⊢
    rw [ih]

/-- The method `topologicalSort` on a workflow with distinct ids and closed
dependencies: it fails with the cycle error when there is a cycle, and
otherwise returns the reverse of a list that has every node once, each after
the nodes it requires. -/
theorem topologicalSort_spec (wf : Workflow)
    (hinj : ∀ p ∈ wf.Nodes, ∀ q ∈ wf.Nodes, (wf.heap p).Id = (wf.heap q).Id → p = q)
    (hclosed : ∀ p ∈ wf.Nodes, ∀ d ∈ (wf.heap p).Requires, d ∈ wf.Nodes) :
    (HasCycle wf ∧ topologicalSort wf = some (.error cycleError)) ∨
    (¬ HasCycle wf ∧ ∃ stack, topologicalSort wf = some (.ok stack.reverse) ∧ Topo wf stack ∧
      stack.Nodup ∧ ∀ p, p ∈ stack ↔ p ∈ wf.Nodes) := by
  set st0 : SortState :=
    { stack := [], visited := fun _ => false, recStack := fun _ => false } with hst0
  have hinv0 : SortInv wf st0 :=
    ⟨fun _ _ h => by simp [hst0] at h, fun _ _ => by simp [hst0], fun _ h => by simp [hst0] at h,
      List.nodup_nil, Topo.nil⟩
  have hfuel : unvisited wf st0 ≤ wf.Nodes.length := List.countP_le_length _
  obtain ⟨r, hr, hpost, hall⟩ :=
    visitNodes_spec wf hinj hclosed wf.Nodes.length wf.Nodes (fun _ h => h) st0 hinv0
      (fun _ _ => rfl) hfuel
  cases r with
  | error e =>
    obtain ⟨he, hcyc⟩ := hpost
    subst he
    left
    refine ⟨hcyc, ?_⟩
    simp only [topologicalSort]
    rw [← hst0, hr]
  | ok st1 =>
    obtain ⟨hinv1, _, hr1⟩ := hpost
    have hmem : ∀ p, p ∈ st1.stack ↔ p ∈ wf.Nodes := by
      intro p
      constructor
      · exact hinv1.stackSub p
      · intro hp
        refine (hinv1.stackIff p hp).mpr ⟨hall st1 rfl p hp, ?_⟩
        rw [hr1 p hp]
    right
    refine ⟨?_, st1.stack, ?_, hinv1.topo, hinv1.stackNodup, hmem⟩
    · rintro ⟨n, hn, hcyc⟩
      exact (topo_closed_acyclic wf st1.stack hinv1.topo).2 n ((hmem n).mpr hn) hcyc
    · simp only [topologicalSort]
      rw [← hst0, hr]
      simp only [popAll_eq_reverse]

/-! ## Run: the invariant and its preservation -/

@[simp] theorem goto_pc_same (s : RunState) (n : Ptr) (c : PC) : (s.goto n c).pc n = c := by
  simp [RunState.goto]

theorem goto_pc_other (s : RunState) (n p : Ptr) (c : PC) (h : p ≠ n) :
    (s.goto n c).pc p = s.pc p := by
  simp [RunState.goto, Function.update_noteq h]

@[simp] theorem goto_heap (s : RunState) (n : Ptr) (c : PC) : (s.goto n c).heap = s.heap := rfl

@[simp] theorem goto_semLen (s : RunState) (n : Ptr) (c : PC) :
    (s.goto n c).semLen = s.semLen := rfl

@[simp] theorem goto_first (s : RunState) (n : Ptr) (c : PC) :
    (s.goto n c).firstEncounteredError = s.firstEncounteredError := rfl

@[simp] theorem goto_errorLock (s : RunState) (n : Ptr) (c : PC) :
    (s.goto n c).errorLock = s.errorLock := rfl

@[simp] theorem goto_invoked (s : RunState) (n : Ptr) (c : PC) :
    (s.goto n c).invoked = s.invoked := rfl

@[simp] theorem store_heap_same (s : RunState) (n : Ptr) (nd : Node) :
    (s.store n nd).heap n = nd := by
  simp [RunState.store]

theorem store_heap_other (s : RunState) (n p : Ptr) (nd : Node) (h : p ≠ n) :
    (s.store n nd).heap p = s.heap p := by
  simp [RunState.store, Function.update_noteq h]

@[simp] theorem store_pc (s : RunState) (n : Ptr) (nd : Node) : (s.store n nd).pc = s.pc := rfl

@[simp] theorem store_semLen (s : RunState) (n : Ptr) (nd : Node) :
    (s.store n nd).semLen = s.semLen := rfl

@[simp] theorem store_first (s : RunState) (n : Ptr) (nd : Node) :
    (s.store n nd).firstEncounteredError = s.firstEncounteredError := rfl

@[simp] theorem store_errorLock (s : RunState) (n : Ptr) (nd : Node) :
    (s.store n nd).errorLock = s.errorLock := rfl

@[simp] theorem store_invoked (s : RunState) (n : Ptr) (nd : Node) :
    (s.store n nd).invoked = s.invoked := rfl

/-- Every successful `step` is one of the moves of `Step`. -/
theorem step_sound (cap : Nat) (s s1 : RunState) (n : Ptr) (h : step cap s n = some s1) :
    Step cap s n s1 := by
  unfold step at h
  split at h
  · rename_i i hpc
    split at h
    · rename_i hget
      cases h; exact Step.loopEnd i hpc hget
    · rename_i req hget
      split at h
      · rename_i hd
        cases h; exact Step.received i req hpc hget hd
      · cases h
  · rename_i i req hpc
    split at h
    · rename_i e he
      cases h; exact Step.depFailed i req e hpc he
    · rename_i he
      cases h; exact Step.depPassed i req hpc he
  · rename_i hpc
    split at h
    · cases h
    · rename_i hd
      cases h; exact Step.blockedClosed hpc (by simpa using hd)
  · rename_i hpc
    split at h
    · rename_i hlt
      cases h; exact Step.acquired hpc hlt
    · cases h
  · rename_i hpc
    cases h; exact Step.entered hpc
  · rename_i hpc
    cases h; exact Step.executed hpc
  · rename_i hpc
    split at h
    · cases h
    · rename_i hd
      cases h; exact Step.closed hpc (by simpa using hd)
  · rename_i hpc
    split at h
    · cases h
    · rename_i hne
      cases h; exact Step.released hpc hne
  · rename_i hpc
    split at h
    · rename_i hc
      cases h; exact Step.mustCapture hpc hc.1 hc.2
    · rename_i hc
      cases h
      refine Step.skipCapture hpc ?_
      by_cases he : (s.heap n).Error = none
      · exact Or.inl he
      · right
        intro hf
        exact hc ⟨he, hf⟩
  · rename_i hpc
    split at h
    · cases h
    · rename_i hl
      cases h; exact Step.locked hpc (by simpa using hl)
  · rename_i hpc
    cases h; exact Step.wrote hpc
  · rename_i hpc
    cases h; exact Step.unlocked hpc
  · cases h

/-- Every move of `Step` is what `step` computes. -/
theorem step_complete (cap : Nat) (s s1 : RunState) (n : Ptr) (h : Step cap s n s1) :
    step cap s n = some s1 := by
  cases h with
  | loopEnd i hpc hget => simp only [step, hpc, hget]
  | skipCapture hpc hc =>
    have : ¬((s.heap n).Error ≠ none ∧ s.firstEncounteredError = none) := by
      rintro ⟨h1, h2⟩
      rcases hc with h | h
      · exact h1 h
      · exact h h2
    simp only [step, hpc, this, if_false]
  | _ => simp_all [step]

/-- Fields `executeNode` leaves alone, and the shapes its outcome can take. -/
theorem executeNodeBody_fields (heap : Ptr → Node) (n : Ptr) :
    (executeNodeBody heap n).1.Requires = (heap n).Requires ∧
    (executeNodeBody heap n).1.Id = (heap n).Id ∧
    (executeNodeBody heap n).1.Done = (heap n).Done ∧
    ((executeNodeBody heap n).1.State = (heap n).State ∨
      (executeNodeBody heap n).1.State = .Errored ∨
      (executeNodeBody heap n).1.State = .Completed) ∧
    ((executeNodeBody heap n).1.Error = (heap n).Error ∨
      (∃ r, (executeNodeBody heap n).1.Error = some (.panicError r)) ∨
      (∃ m, (executeNodeBody heap n).1.Error = some (.external m))) ∧
    ((heap n).Error = none → (executeNodeBody heap n).1.Error = none →
      (executeNodeBody heap n).1.State = .Completed) := by
  unfold executeNodeBody
  simp only
  split
  · simp
  · split
    · simp
    · split
      · simp
      · split <;> simp

/-- A step of goroutine `n` leaves the other goroutines and the other nodes
alone, never changes `Requires` or `Id`, and keeps what was recorded. -/
theorem Step.frame (cap : Nat) (s s1 : RunState) (n : Ptr) (h : Step cap s n s1) :
    (∀ p, p ≠ n → s1.pc p = s.pc p ∧ s1.heap p = s.heap p) ∧
    ((s1.heap n).Requires = (s.heap n).Requires ∧ (s1.heap n).Id = (s.heap n).Id) ∧
    (s.firstEncounteredError ≠ none → s1.firstEncounteredError = s.firstEncounteredError) ∧
    (∀ q ∈ s.invoked, q ∈ s1.invoked) := by
  have hb := executeNodeBody_fields s.heap n
  cases h with
  | executed hpc =>
    refine ⟨fun p hp => ⟨by simp [goto_pc_other _ _ _ _ hp], by simp [store_heap_other _ _ _ _ hp]⟩,
      by simp [hb.1, hb.2.1], fun _ => rfl, fun q hq => ?_⟩
    simp only [goto_invoked, store_invoked]
    split
    · exact List.mem_append_left _ hq
    · exact hq
  | wrote hpc =>
    refine ⟨fun p hp => ⟨by simp [goto_pc_other _ _ _ _ hp], rfl⟩, ⟨rfl, rfl⟩, fun hne => ?_,
      fun q hq => hq⟩
    simp [hne]
  | _ =>
    refine ⟨fun p hp => ⟨by simp [goto_pc_other _ _ _ _ hp],
      by simp [store_heap_other _ _ _ _ hp]⟩, by simp [executeNodeBegin], fun _ => rfl,
      fun q hq => hq⟩

/-- Once `Done` is closed a node never changes again. -/
theorem Step.stable (cap : Nat) (s s1 : RunState) (n : Ptr) (hn : NodeInv s n)
    (h : Step cap s n s1) : ∀ d, (s.heap d).Done = true → s1.heap d = s.heap d := by
  intro d hd
  by_cases hdn : d = n
  · subst hdn
    unfold NodeInv at hn
    cases h with
    | depFailed i req e hpc he =>
      rw [hpc] at hn
      have := hn.1.2.1
      rw [this] at hd; cases hd
    | blockedClosed hpc hdone => rw [hdone] at hd; cases hd
    | entered hpc =>
      rw [hpc] at hn
      have := hn.1.2.1
      rw [this] at hd; cases hd
    | executed hpc =>
      rw [hpc] at hn
      have := hn.2.2.2.1
      rw [this] at hd; cases hd
    | closed hpc hdone => rw [hdone] at hd; cases hd
    | _ => rfl
  · exact ((Step.frame cap s s1 n h).1 d hdn).2

theorem DepOk_mono (heap heap1 : Ptr → Node)
    (hst : ∀ d, (heap d).Done = true → heap1 d = heap d) (d : Ptr) (h : DepOk heap d) :
    DepOk heap1 d := by
  unfold DepOk at *
  rw [hst d h.1]
  exact h

theorem PrefixOk_mono (heap heap1 : Ptr → Node)
    (hst : ∀ d, (heap d).Done = true → heap1 d = heap d) (p : Ptr)
    (hreq : (heap1 p).Requires = (heap p).Requires) (i : Nat) (h : PrefixOk heap p i) :
    PrefixOk heap1 p i := by
  intro j hj d hd
  rw [hreq] at hd
  exact DepOk_mono heap heap1 hst d (h j hj d hd)

theorem AllOk_mono (heap heap1 : Ptr → Node)
    (hst : ∀ d, (heap d).Done = true → heap1 d = heap d) (p : Ptr)
    (hreq : (heap1 p).Requires = (heap p).Requires) (h : AllOk heap p) : AllOk heap1 p := by
  intro d hd
  rw [hreq] at hd
  exact DepOk_mono heap heap1 hst d (h d hd)

theorem Executed_mono (heap heap1 : Ptr → Node)
    (hst : ∀ d, (heap d).Done = true → heap1 d = heap d) (p : Ptr)
    (hreq : (heap1 p).Requires = (heap p).Requires) (hstate : (heap1 p).State = (heap p).State)
    (herr : (heap1 p).Error = (heap p).Error) (h : Executed heap p) : Executed heap1 p :=
  ⟨by rw [hstate]; exact h.1, by rw [hstate, herr]; exact h.2.1,
    AllOk_mono heap heap1 hst p hreq h.2.2⟩

theorem BlockedBy_mono (heap heap1 : Ptr → Node)
    (hst : ∀ d, (heap d).Done = true → heap1 d = heap d) (p : Ptr)
    (hreq : (heap1 p).Requires = (heap p).Requires) (herr : (heap1 p).Error = (heap p).Error)
    (hstate : (heap1 p).State = (heap p).State) (hres : (heap1 p).Result = (heap p).Result)
    (h : BlockedBy heap p) : BlockedBy heap1 p := by
  obtain ⟨i, req, e, h1, h2, h3, h4, h5, h6, h7⟩ := h
  refine ⟨i, req, e, by rw [hreq]; exact h1, ?_, ?_, PrefixOk_mono heap heap1 hst p hreq i h4,
    ?_, by rw [hstate]; exact h6, by rw [hres]; exact h7⟩
  · rw [hst req h2]; exact h2
  · rw [hst req h2]; exact h3
  · rw [herr, hst req h2]; exact h5

/-- The invariant of a node whose goroutine does not move is kept. -/
theorem NodeInv.other (s s1 : RunState) (p : Ptr) (hpc : s1.pc p = s.pc p)
    (hheap : s1.heap p = s.heap p)
    (hst : ∀ d, (s.heap d).Done = true → s1.heap d = s.heap d)
    (hfirst : s.firstEncounteredError ≠ none → s1.firstEncounteredError ≠ none)
    (h : NodeInv s p) : NodeInv s1 p := by
  have hreq : (s1.heap p).Requires = (s.heap p).Requires := by rw [hheap]
  have hU : Untouched s.heap p → Untouched s1.heap p := by
    unfold Untouched; rw [hheap]; exact id
  have hP : ∀ i, PrefixOk s.heap p i → PrefixOk s1.heap p i :=
    fun i => PrefixOk_mono _ _ hst p hreq i
  have hA : AllOk s.heap p → AllOk s1.heap p := AllOk_mono _ _ hst p hreq
  have hE : Executed s.heap p → Executed s1.heap p :=
    Executed_mono _ _ hst p hreq (by rw [hheap]) (by rw [hheap])
  have hB : BlockedBy s.heap p → BlockedBy s1.heap p :=
    BlockedBy_mono _ _ hst p hreq (by rw [hheap]) (by rw [hheap]) (by rw [hheap])
  unfold NodeInv at h ⊢
  rw [hpc]
  split <;> rename_i hc <;> rw [hc] at h <;> simp only at h
  · exact ⟨hU h.1, by rw [hheap]; exact h.2.1, hP _ h.2.2⟩
  · exact ⟨hU h.1, by rw [hheap]; exact h.2.1, by rw [hst _ h.2.2.1]; exact h.2.2.1, hP _ h.2.2.2⟩
  · exact ⟨hB h.1, by rw [hheap]; exact h.2⟩
  · exact ⟨hU h.1, hA h.2⟩
  · exact ⟨hU h.1, hA h.2⟩
  · refine ⟨?_, ?_, ?_, ?_, hA h.2.2.2.2⟩ <;> rw [hheap]
    · exact h.1
    · exact h.2.1
    · exact h.2.2.1
    · exact h.2.2.2.1
  · exact ⟨hE h.1, by rw [hheap]; exact h.2⟩
  · exact ⟨hE h.1, by rw [hheap]; exact h.2⟩
  · exact ⟨hE h.1, by rw [hheap]; exact h.2⟩
  · exact ⟨hE h.1, by rw [hheap]; exact h.2⟩
  · exact ⟨hE h.1, by rw [hheap]; exact h.2⟩
  · exact ⟨hE h.1, by rw [hheap]; exact h.2.1, hfirst h.2.2⟩
  · refine ⟨by rw [hheap]; exact h.1, ?_⟩
    rcases h.2 with hb | ⟨he, hf⟩
    · exact Or.inl (hB hb)
    · exact Or.inr ⟨hE he, fun hne => hfirst (hf (by rw [← hheap]; exact hne))⟩

/-- The invariant of the node whose goroutine moves is re-established at its
new program point. -/
theorem NodeInv.self (cap : Nat) (s s1 : RunState) (n : Ptr) (hn : NodeInv s n)
    (h : Step cap s n s1) : NodeInv s1 n := by
  have hst := Step.stable cap s s1 n hn h
  have hb := executeNodeBody_fields s.heap n
  unfold NodeInv at hn ⊢
  cases h with
  | loopEnd i hpc hget =>
    rw [hpc] at hn
    simp only [goto_pc_same, goto_heap] at hn ⊢
    refine ⟨hn.1, ?_⟩
    intro d hd
    obtain ⟨j, hj⟩ := List.mem_iff_getElem?.mp hd
    have hlen : (s.heap n).Requires.length ≤ i := List.getElem?_eq_none_iff.mp hget
    have hjlt : j < (s.heap n).Requires.length := by
      by_contra hc
      rw [List.getElem?_eq_none_iff.mpr (not_lt.mp hc)] at hj
      cases hj
    exact hn.2.2 j (by omega) d hj
  | received i req hpc hget hd =>
    rw [hpc] at hn
    simp only [goto_pc_same, goto_heap] at hn ⊢
    exact ⟨hn.1, hget, hd, hn.2.2⟩
  | depFailed i req e hpc he =>
    rw [hpc] at hn
    simp only [goto_pc_same, goto_heap] at hn hst ⊢
    obtain ⟨hu, hget, hdone, hpre⟩ := hn
    have hreq1 := hst req hdone
    refine ⟨⟨i, req, e, ?_, ?_, ?_, ?_, ?_, ?_, ?_⟩, ?_⟩
    · simpa using hget
    · rw [hreq1]; exact hdone
    · rw [hreq1]; exact he
    · exact PrefixOk_mono _ _ hst n (by simp) i hpre
    · rw [hreq1]; simp
    · simpa using hu.2.2.1
    · simpa using hu.2.2.2
    · simpa using hu.2.1
  | depPassed i req hpc he =>
    rw [hpc] at hn
    simp only [goto_pc_same, goto_heap] at hn ⊢
    obtain ⟨hu, hget, hdone, hpre⟩ := hn
    have hilt : i < (s.heap n).Requires.length := by
      by_contra hc
      rw [List.getElem?_eq_none_iff.mpr (not_lt.mp hc)] at hget
      cases hget
    refine ⟨hu, hilt, ?_⟩
    intro j hj d hd
    by_cases hji : j < i
    · exact hpre j hji d hd
    · have : j = i := by omega
      subst this
      rw [hget] at hd
      cases hd
      exact ⟨hdone, he⟩
  | blockedClosed hpc hdone =>
    rw [hpc] at hn
    simp only [goto_pc_same, goto_heap] at hn hst ⊢
    refine ⟨by simp, Or.inl ?_⟩
    exact BlockedBy_mono _ _ hst n (by simp) (by simp) (by simp) (by simp) hn.1
  | acquired hpc hlt =>
    rw [hpc] at hn
    simp only [goto_pc_same, goto_heap] at hn ⊢
    exact hn
  | entered hpc =>
    rw [hpc] at hn
    simp only [goto_pc_same, goto_heap] at hn hst ⊢
    obtain ⟨hu, hall⟩ := hn
    refine ⟨by simp [executeNodeBegin], ?_, ?_, ?_, ?_⟩
    · simpa [executeNodeBegin] using hu.1
    · simpa [executeNodeBegin] using hu.2.2.2
    · simpa [executeNodeBegin] using hu.2.1
    · exact AllOk_mono _ _ hst n (by simp [executeNodeBegin]) hall
  | executed hpc =>
    rw [hpc] at hn
    simp only [goto_pc_same, goto_heap] at hn hst ⊢
    obtain ⟨hs, herr, _, hdone, hall⟩ := hn
    refine ⟨⟨?_, ?_, AllOk_mono _ _ hst n (by simpa using hb.1) hall⟩, ?_⟩
    · simp only [store_heap_same]
      rcases hb.2.2.2.1 with h | h | h <;> rw [h]
      · rw [hs]; simp
      · simp
      · simp
    · simp only [store_heap_same]
      exact hb.2.2.2.2.2 herr
    · simp only [store_heap_same]
      rw [hb.2.2.1]; exact hdone
  | closed hpc hdone =>
    rw [hpc] at hn
    simp only [goto_pc_same, goto_heap] at hn hst ⊢
    exact ⟨Executed_mono _ _ hst n (by simp) (by simp) (by simp) hn.1, by simp⟩
  | released hpc hne =>
    rw [hpc] at hn
    simp only [goto_pc_same, goto_heap] at hn ⊢
    exact hn
  | mustCapture hpc he hf =>
    rw [hpc] at hn
    simp only [goto_pc_same, goto_heap] at hn ⊢
    exact ⟨hn.1, hn.2, he⟩
  | skipCapture hpc hc =>
    rw [hpc] at hn
    simp only [goto_pc_same, goto_heap, goto_first] at hn ⊢
    refine ⟨hn.2, Or.inr ⟨hn.1, fun hne => ?_⟩⟩
    rcases hc with h | h
    · exact absurd h hne
    · exact h
  | locked hpc hl =>
    rw [hpc] at hn
    simp only [goto_pc_same, goto_heap] at hn ⊢
    exact hn
  | wrote hpc =>
    rw [hpc] at hn
    simp only [goto_pc_same, goto_heap, goto_first] at hn ⊢
    refine ⟨hn.1, hn.2.1, ?_⟩
    split
    · exact hn.2.2
    · assumption
  | unlocked hpc =>
    rw [hpc] at hn
    simp only [goto_pc_same, goto_heap, goto_first] at hn ⊢
    exact ⟨hn.2.1, Or.inr ⟨hn.1, fun _ => hn.2.2⟩⟩

/-- Changing the program counter of one goroutine changes a count over the
(distinct) nodes by that goroutine alone. -/
theorem countP_pc_update (l : List Ptr) (hnd : l.Nodup) (n : Ptr) (hn : n ∈ l) (f : PC → Bool)
    (pc pc1 : Ptr → PC) (hother : ∀ p, p ≠ n → pc1 p = pc p) :
    l.countP (fun p => f (pc1 p)) + (if f (pc n) = true then 1 else 0) =
      l.countP (fun p => f (pc p)) + (if f (pc1 n) = true then 1 else 0) := by
  induction l with
  | nil => simp at hn
  | cons a l ih =>
    have hnd' := (List.nodup_cons.mp hnd)
    rcases List.mem_cons.mp hn with rfl | hmem
    · have hrest : l.countP (fun p => f (pc1 p)) = l.countP (fun p => f (pc p)) := by
        apply List.countP_congr
        intro p hp
        have : p ≠ n := fun h => hnd'.1 (h ▸ hp)
        simp [hother p this]
      simp only [List.countP_cons, hrest]
      omega
    · have han : a ≠ n := fun h => hnd'.1 (h ▸ hmem)
      have := ih hnd'.2 hmem
      simp only [List.countP_cons, hother a han]
      omega

/-- A goroutine that moves belongs to a node of the workflow. -/
theorem Step.mem (wf : Workflow) (s s1 : RunState) (n : Ptr) (hinv : RunInv wf s)
    (h : Step wf.semCap s n s1) : n ∈ wf.Nodes := by
  by_contra hc
  have := hinv.outside n hc
  cases h <;> simp_all

/-- Effect of a step on the length of `wf.sem`. -/
theorem Step.semEffect (cap : Nat) (s s1 : RunState) (n : Ptr) (h : Step cap s n s1) :
    (s1.semLen = s.semLen ∧ (s1.pc n).holding = (s.pc n).holding) ∨
    (s1.semLen = s.semLen + 1 ∧ s.semLen < cap ∧ (s.pc n).holding = false ∧
      (s1.pc n).holding = true) ∨
    (s1.semLen + 1 = s.semLen ∧ (s.pc n).holding = true ∧ (s1.pc n).holding = false) := by
  cases h with
  | acquired hpc hlt => right; left; simp [hpc, PC.holding, hlt]
  | released hpc hne => right; right; simp [hpc, PC.holding]; omega
  | _ => left; simp [*, PC.holding]

/-- Effect of a step on `errorLock`. -/
theorem Step.lockEffect (cap : Nat) (s s1 : RunState) (n : Ptr) (h : Step cap s n s1) :
    (s1.errorLock = s.errorLock ∧ (s1.pc n).locking = (s.pc n).locking) ∨
    (s.errorLock = false ∧ s1.errorLock = true ∧ (s.pc n).locking = false ∧
      (s1.pc n).locking = true) ∨
    (s1.errorLock = false ∧ (s.pc n).locking = true ∧ (s1.pc n).locking = false) := by
  cases h with
  | locked hpc hl => right; left; simp [hpc, PC.locking, hl]
  | unlocked hpc => right; right; simp [hpc, PC.locking]
  | _ => left; simp [*, PC.locking]

/-- The invariant is kept by every step of every goroutine. -/
theorem RunInv.step (wf : Workflow) (hnd : wf.Nodes.Nodup) (s s1 : RunState) (n : Ptr)
    (hinv : RunInv wf s) (h : Step wf.semCap s n s1) : RunInv wf s1 := by
  have hmem := Step.mem wf s s1 n hinv h
  have hnode := hinv.node n hmem
  have hst := Step.stable _ s s1 n hnode h
  obtain ⟨hother, hreqid, hfirst, hinvk⟩ := Step.frame _ s s1 n h
  have hself := NodeInv.self _ s s1 n hnode h
  have hfirst' : s.firstEncounteredError ≠ none → s1.firstEncounteredError ≠ none :=
    fun hne => by rw [hfirst hne]; exact hne
  have hb := executeNodeBody_fields s.heap n
  have hsem := countP_pc_update wf.Nodes hnd n hmem PC.holding s.pc s1.pc
    (fun p hp => (hother p hp).1)
  have hlock := countP_pc_update wf.Nodes hnd n hmem PC.locking s.pc s1.pc
    (fun p hp => (hother p hp).1)
  have hS := hinv.sem
  have hC := hinv.semCap
  have hL := hinv.lock
  refine ⟨?_, ?_, ?_, ?_, ?_, ?_, ?_, ?_, ?_⟩
  · intro p
    by_cases hp : p = n
    · subst hp
      rw [hreqid.1, hreqid.2]; exact hinv.frame p
    · rw [(hother p hp).2]; exact hinv.frame p
  · intro p hp
    have hpn : p ≠ n := fun h => hp (h ▸ hmem)
    rw [(hother p hpn).1]; exact hinv.outside p hp
  · intro p hp
    by_cases hpn : p = n
    · subst hpn; exact hself
    · exact NodeInv.other s s1 p (hother p hpn).1 (hother p hpn).2 hst hfirst' (hinv.node p hp)
  · -- invoked
    have hstate : (s.heap n).State ≠ .Pending → (s1.heap n).State ≠ .Pending := by
      intro hne
      cases h with
      | entered hpc => simp [executeNodeBegin]
      | executed hpc =>
        simp only [goto_heap, store_heap_same]
        rcases hb.2.2.2.1 with h | h | h <;> rw [h]
        · exact hne
        · simp
        · simp
      | _ => simpa using hne
    have hold : ∀ q ∈ s.invoked, q ∈ wf.Nodes ∧ (s1.heap q).State ≠ .Pending := by
      intro q hq
      refine ⟨(hinv.invoked q hq).1, ?_⟩
      by_cases hqn : q = n
      · subst hqn; exact hstate (hinv.invoked q hq).2
      · rw [(hother q hqn).2]; exact (hinv.invoked q hq).2
    cases h with
    | executed hpc =>
      intro q hq
      simp only [goto_invoked, store_invoked] at hq
      split at hq
      · rcases List.mem_append.mp hq with hq | hq
        · exact hold q hq
        · have : q = n := by simpa using hq
          subst this
          refine ⟨hmem, ?_⟩
          have hs : (s.heap q).State = .Running := by
            unfold NodeInv at hnode; rw [hpc] at hnode; exact hnode.1
          exact hstate (by rw [hs]; simp)
      · exact hold q hq
    | _ => exact hold
  · -- first
    have hold : ∀ e, s.firstEncounteredError = some e →
        ∃ p ∈ wf.Nodes, (s1.heap p).Error = some e ∧ (s1.heap p).Done = true := by
      intro e he
      obtain ⟨p, hp, h1, h2⟩ := hinv.first e he
      exact ⟨p, hp, by rw [hst p h2]; exact h1, by rw [hst p h2]; exact h2⟩
    cases h with
    | wrote hpc =>
      intro e he
      simp only [goto_first] at he
      split at he
      · unfold NodeInv at hnode; rw [hpc] at hnode
        exact ⟨n, hmem, he, hnode.2.1⟩
      · exact hold e he
    | _ => exact hold
  · -- sem
    rcases Step.semEffect _ s s1 n h with ⟨h1, h2⟩ | ⟨h1, _, h2, h3⟩ | ⟨h1, h2, h3⟩
    · rw [h2] at hsem; omega
    · rw [h2, h3] at hsem
      simp only [↓reduceIte, Bool.false_eq_true] at hsem
      omega
    · rw [h2, h3] at hsem
      simp only [↓reduceIte, Bool.false_eq_true] at hsem
      omega
  · rcases Step.semEffect _ s s1 n h with ⟨h1, _⟩ | ⟨h1, h2, _⟩ | ⟨h1, _⟩ <;> omega
  · -- lock
    have hpos : (s.pc n).locking = true → 0 < wf.Nodes.countP (fun p => (s.pc p).locking) :=
      fun hl => List.countP_pos_iff.mpr ⟨n, hmem, hl⟩
    rcases Step.lockEffect _ s s1 n h with ⟨h1, h2⟩ | ⟨h0, h1, h2, h3⟩ | ⟨h1, h2, h3⟩
    · rw [h2] at hlock; rw [h1]; omega
    · rw [h2, h3] at hlock; rw [h0] at hL; rw [h1]
      simp only [↓reduceIte, Bool.false_eq_true] at hlock hL ⊢
      omega
    · have := hpos h2
      rw [h2, h3] at hlock; rw [h1]
      by_cases hl : s.errorLock = true
      · rw [if_pos hl] at hL
        simp only [↓reduceIte, Bool.false_eq_true] at hlock ⊢
        omega
      · rw [if_neg hl] at hL; omega
  · -- noNew
    intro p hp msg
    by_cases hpn : p = n
    · subst hpn
      have hold := hinv.noNew p hp msg
      cases h with
      | depFailed i req e hpc he => simp
      | executed hpc =>
        simp only [goto_heap, store_heap_same]
        rcases hb.2.2.2.2.1 with h | ⟨r, h⟩ | ⟨m, h⟩ <;> rw [h]
        · exact hold
        · simp
        · simp
      | _ => simpa [executeNodeBegin] using hold
    · rw [(hother p hpn).2]; exact hinv.noNew p hp msg

/-! ## Run: reachable states, sort phase, termination -/

/-- The invariant holds when the goroutines are started. -/
theorem RunInv.init (wf : Workflow) (hwf : WellFormed wf) : RunInv wf (initRun wf) := by
  have hpc : ∀ p ∈ wf.Nodes, (initRun wf).pc p = .waitDep 0 := by
    intro p hp; simp [initRun, hp]
  have hcount : ∀ f : PC → Bool, f (.waitDep 0) = false →
      wf.Nodes.countP (fun p => f ((initRun wf).pc p)) = 0 := by
    intro f hf
    rw [List.countP_eq_zero]
    intro p hp
    rw [hpc p hp, hf]
    simp
  refine ⟨fun _ => ⟨rfl, rfl⟩, ?_, ?_, ?_, ?_, ?_, ?_, ?_, ?_⟩
  · intro p hp; simp [initRun, hp]
  · intro p hp
    unfold NodeInv
    rw [hpc p hp]
    obtain ⟨h1, h2, h3, h4⟩ := hwf.fresh p hp
    exact ⟨⟨h1, h2, h3, h4⟩, Nat.zero_le _, fun j hj => absurd hj (Nat.not_lt_zero j)⟩
  · intro p hp; simp [initRun] at hp
  · intro e he; simp [initRun] at he
  · rw [hcount PC.holding rfl]; exact hwf.semEmpty
  · show wf.semLen ≤ wf.semCap
    rw [hwf.semEmpty]; exact Nat.zero_le _
  · rw [hcount PC.locking rfl]; simp [initRun]
  · intro p hp msg
    show (wf.heap p).Error ≠ _
    rw [(hwf.fresh p hp).1]; simp

/-- The invariant holds after any schedule. -/
theorem RunInv.schedule (wf : Workflow) (hnd : wf.Nodes.Nodup) (sched : List Ptr)
    (s : RunState) (hinv : RunInv wf s) : RunInv wf (Wf.runSchedule wf.semCap s sched) := by
  induction sched generalizing s with
  | nil => exact hinv
  | cons n rest ih =>
    simp only [Wf.runSchedule]
    cases h : Wf.step wf.semCap s n with
    | none => exact ih s hinv
    | some s1 => exact ih s1 (RunInv.step wf hnd s s1 n hinv (step_sound _ s s1 n h))

/-- Every state a run of a well-formed workflow can reach satisfies the
invariant. -/
theorem RunInv.reach (wf : Workflow) (hwf : WellFormed wf) (sched : List Ptr) :
    RunInv wf (runSchedule wf.semCap (initRun wf) sched) :=
  RunInv.schedule wf hwf.nodup sched _ (RunInv.init wf hwf)

theorem runSchedule_append (cap : Nat) (s : RunState) (a b : List Ptr) :
    runSchedule cap s (a ++ b) = runSchedule cap (runSchedule cap s a) b := by
  induction a generalizing s with
  | nil => rfl
  | cons n rest ih =>
    simp only [List.cons_append, runSchedule]
    cases step cap s n <;> exact ih _

theorem hasCycle_congr (wf wf1 : Workflow) (hheap : wf1.heap = wf.heap)
    (hmem : ∀ p, p ∈ wf1.Nodes ↔ p ∈ wf.Nodes) : HasCycle wf1 ↔ HasCycle wf := by
  have hdep : Dep wf1 = Dep wf := by
    funext a b; simp [Dep, hheap]
  unfold HasCycle
  rw [hdep]
  constructor
  · rintro ⟨n, hn, h⟩; exact ⟨n, (hmem n).mp hn, h⟩
  · rintro ⟨n, hn, h⟩; exact ⟨n, (hmem n).mpr hn, h⟩

/-- The sort phase of `Run` on a well-formed workflow: with a cycle and the
sort requested it fails with the cycle error; otherwise it yields a
well-formed workflow with the same nodes, possibly in another order. -/
theorem sortNodes_spec (wf : Workflow) (hwf : WellFormed wf) (useTopologicalSort : Bool) :
    (useTopologicalSort = true ∧ HasCycle wf ∧
      sortNodes wf useTopologicalSort = some (.error cycleError)) ∨
    ((useTopologicalSort = false ∨ ¬ HasCycle wf) ∧
      ∃ wf1, sortNodes wf useTopologicalSort = some (.ok wf1) ∧ WellFormed wf1 ∧
        wf1.heap = wf.heap ∧ wf1.semCap = wf.semCap ∧ wf1.Debug = wf.Debug ∧
        wf1.CurrentNodeID = wf.CurrentNodeID ∧
        (useTopologicalSort = false → wf1 = wf) ∧ (∀ p, p ∈ wf1.Nodes ↔ p ∈ wf.Nodes)) := by
  cases useTopologicalSort with
  | false =>
    right
    exact ⟨Or.inl rfl, wf, rfl, hwf, rfl, rfl, rfl, rfl, fun _ => rfl, fun _ => Iff.rfl⟩
  | true =>
    rcases topologicalSort_spec wf hwf.idInj hwf.closed with ⟨hc, hs⟩ | ⟨hc, stack, hs, _, hnd, hmem⟩
    · left
      exact ⟨rfl, hc, by simp [sortNodes, hs]⟩
    · right
      have hmem' : ∀ p, p ∈ stack.reverse ↔ p ∈ wf.Nodes := fun p => by
        rw [List.mem_reverse]; exact hmem p
      refine ⟨Or.inr hc, { wf with Nodes := stack.reverse }, by simp [sortNodes, hs], ?_, rfl, rfl,
        rfl, rfl, fun h => (by cases h), hmem'⟩
      exact ⟨List.nodup_reverse.mpr hnd,
        fun p hp q hq => hwf.idInj p ((hmem' p).mp hp) q ((hmem' q).mp hq),
        fun p hp d hd => (hmem' d).mpr (hwf.closed p ((hmem' p).mp hp) d hd),
        fun p hp => hwf.fresh p ((hmem' p).mp hp), hwf.semEmpty, hwf.semPos⟩

/-- Induction along a list in which every node comes after its requirements. -/
theorem Topo.induct (wf : Workflow) (l : List Ptr) (h : Topo wf l) (P : Ptr → Prop)
    (hstep : ∀ b, (∀ d ∈ (wf.heap b).Requires, P d) → P b) : ∀ p ∈ l, P p := by
  induction h with
  | nil => intro p hp; simp at hp
  | snoc l b _ hb ih =>
    intro p hp
    rcases List.mem_append.mp hp with hp | hp
    · exact ih p hp
    · have : p = b := by simpa using hp
      subst this
      exact hstep p (fun d hd => ih d (hb d hd))

/-- An acyclic well-formed workflow has a list of all its nodes in which
every node comes after its requirements. -/
theorem exists_topo (wf : Workflow) (hwf : WellFormed wf) (hac : ¬ HasCycle wf) :
    ∃ l, Topo wf l ∧ ∀ p, p ∈ l ↔ p ∈ wf.Nodes := by
  rcases topologicalSort_spec wf hwf.idInj hwf.closed with ⟨hc, _⟩ | ⟨_, stack, _, ht, _, hmem⟩
  · exact absurd hc hac
  · exact ⟨stack, ht, hmem⟩

/-- Induction over the nodes of an acyclic well-formed workflow, requirements
first. -/
theorem acyclic_induct (wf : Workflow) (hwf : WellFormed wf) (hac : ¬ HasCycle wf)
    (P : Ptr → Prop)
    (hstep : ∀ b ∈ wf.Nodes, (∀ d ∈ (wf.heap b).Requires, P d) → P b) :
    ∀ p ∈ wf.Nodes, P p := by
  obtain ⟨l, ht, hmem⟩ := exists_topo wf hwf hac
  have := Topo.induct wf l ht (fun p => p ∈ wf.Nodes → P p)
    (fun b hb hbn => hstep b hbn (fun d hd => hb d hd (hwf.closed b hbn d hd)))
  exact fun p hp => this p ((hmem p).mpr hp) hp

/-- Deadlock freedom: while a goroutine of an acyclic workflow has not
returned, some goroutine can take a step. -/
theorem exists_step (wf : Workflow) (hwf : WellFormed wf) (hac : ¬ HasCycle wf) (s : RunState)
    (hinv : RunInv wf s) (hnf : ¬ AllFinished wf s) : ∃ n s1, Step wf.semCap s n s1 := by
  by_contra hno
  have hno' : ∀ n s1, ¬ Step wf.semCap s n s1 := fun n s1 h => hno ⟨n, s1, h⟩
  have hholding : ∀ n ∈ wf.Nodes, (s.pc n).holding = false := by
    intro n hn
    have hnode := hinv.node n hn
    unfold NodeInv at hnode
    cases hpc : s.pc n with
    | execStart => exact absurd (Step.entered hpc) (hno' n _)
    | execBody => exact absurd (Step.executed hpc) (hno' n _)
    | closeDone =>
      rw [hpc] at hnode
      exact absurd (Step.closed hpc hnode.2) (hno' n _)
    | release =>
      have hpos : 0 < wf.Nodes.countP (fun p => (s.pc p).holding) :=
        List.countP_pos_iff.mpr ⟨n, hn, by rw [hpc]; rfl⟩
      have := hinv.sem
      exact absurd (Step.released hpc (by omega)) (hno' n _)
    | _ => rfl
  have hlocking : ∀ n ∈ wf.Nodes, (s.pc n).locking = false := by
    intro n hn
    cases hpc : s.pc n with
    | captureWrite => exact absurd (Step.wrote hpc) (hno' n _)
    | captureUnlock => exact absurd (Step.unlocked hpc) (hno' n _)
    | _ => rfl
  have hsem0 : s.semLen = 0 := by
    rw [hinv.sem, List.countP_eq_zero]
    intro p hp; rw [hholding p hp]; simp
  have hlock0 : s.errorLock = false := by
    have h0 : wf.Nodes.countP (fun p => (s.pc p).locking) = 0 := by
      rw [List.countP_eq_zero]
      intro p hp; rw [hlocking p hp]; simp
    have := hinv.lock
    rw [h0] at this
    cases hl : s.errorLock with
    | false => rfl
    | true => rw [hl] at this; simp at this
  have hall : ∀ p ∈ wf.Nodes, s.pc p = .finished := by
    apply acyclic_induct wf hwf hac
    intro b hb ih
    have hnode := hinv.node b hb
    unfold NodeInv at hnode
    cases hpc : s.pc b with
    | waitDep i =>
      cases hget : (s.heap b).Requires[i]? with
      | none => exact absurd (Step.loopEnd i hpc hget) (hno' b _)
      | some req =>
        have hreq : req ∈ (wf.heap b).Requires := by
          rw [← (hinv.frame b).1]
          exact List.mem_iff_getElem?.mpr ⟨i, hget⟩
        have hfin := ih req hreq
        have hreqN := hwf.closed b hb req hreq
        have hnr := hinv.node req hreqN
        unfold NodeInv at hnr
        rw [hfin] at hnr
        exact absurd (Step.received i req hpc hget hnr.1) (hno' b _)
    | checkDep i req =>
      cases he : (s.heap req).Error with
      | none => exact absurd (Step.depPassed i req hpc he) (hno' b _)
      | some e => exact absurd (Step.depFailed i req e hpc he) (hno' b _)
    | closeBlocked =>
      rw [hpc] at hnode
      exact absurd (Step.blockedClosed hpc hnode.2) (hno' b _)
    | acquire =>
      have := hwf.semPos
      exact absurd (Step.acquired hpc (by omega)) (hno' b _)
    | execStart => have := hholding b hb; rw [hpc] at this; cases this
    | execBody => have := hholding b hb; rw [hpc] at this; cases this
    | closeDone => have := hholding b hb; rw [hpc] at this; cases this
    | release => have := hholding b hb; rw [hpc] at this; cases this
    | captureCheck =>
      by_cases hc : (s.heap b).Error ≠ none ∧ s.firstEncounteredError = none
      · exact absurd (Step.mustCapture hpc hc.1 hc.2) (hno' b _)
      · refine absurd (Step.skipCapture hpc ?_) (hno' b _)
        by_cases he : (s.heap b).Error = none
        · exact Or.inl he
        · exact Or.inr (fun hf => hc ⟨he, hf⟩)
    | captureLock => exact absurd (Step.locked hpc hlock0) (hno' b _)
    | captureWrite => have := hlocking b hb; rw [hpc] at this; cases this
    | captureUnlock => have := hlocking b hb; rw [hpc] at this; cases this
    | finished => rfl
  exact hnf hall

theorem sum_map_lt_of_update (l : List Ptr) (hnd : l.Nodup) (n : Ptr) (hn : n ∈ l)
    (f f1 : Ptr → Nat) (hother : ∀ p, p ≠ n → f1 p = f p) (hlt : f n < f1 n) :
    (l.map f).sum < (l.map f1).sum := by
  induction l with
  | nil => simp at hn
  | cons a l ih =>
    have hnd' := List.nodup_cons.mp hnd
    rcases List.mem_cons.mp hn with rfl | hmem
    · have hrest : l.map f1 = l.map f := by
        apply List.map_congr_left
        intro p hp
        exact hother p (fun h => hnd'.1 (h ▸ hp))
      simp only [List.map_cons, List.sum_cons, hrest]
      omega
    · have han : a ≠ n := fun h => hnd'.1 (h ▸ hmem)
      have := ih hnd'.2 hmem
      simp only [List.map_cons, List.sum_cons, hother a han]
      omega

theorem sum_map_le (l : List Ptr) (f g : Ptr → Nat) (h : ∀ p ∈ l, f p ≤ g p) :
    (l.map f).sum ≤ (l.map g).sum := by
  induction l with
  | nil => simp
  | cons a l ih =>
    have h1 := h a (List.mem_cons_self _ _)
    have h2 := ih (fun p hp => h p (List.mem_cons_of_mem _ hp))
    simp only [List.map_cons, List.sum_cons]
    omega

/-- A step raises the rank of the goroutine that takes it. -/
theorem Step.rank_lt (cap : Nat) (s s1 : RunState) (n : Ptr) (hn : NodeInv s n)
    (h : Step cap s n s1) :
    (s.pc n).rank (s.heap n).Requires.length < (s1.pc n).rank (s.heap n).Requires.length := by
  unfold NodeInv at hn
  cases h with
  | loopEnd i hpc hget =>
    rw [hpc] at hn
    simp only [goto_pc_same, hpc, PC.rank]
    have := hn.2.1
    omega
  | received i req hpc hget hd => simp only [goto_pc_same, hpc, PC.rank]; omega
  | depFailed i req e hpc he =>
    rw [hpc] at hn
    have hilt : i < (s.heap n).Requires.length := by
      by_contra hc
      have := hn.2.1
      rw [List.getElem?_eq_none_iff.mpr (not_lt.mp hc)] at this
      cases this
    simp only [goto_pc_same, hpc, PC.rank]; omega
  | depPassed i req hpc he => simp only [goto_pc_same, hpc, PC.rank]; omega
  | _ => simp only [goto_pc_same, PC.rank, *]; omega

/-- The rank of a goroutine never exceeds the rank of `finished`. -/
theorem NodeInv.rank_le (s : RunState) (n : Ptr) (hn : NodeInv s n) :
    (s.pc n).rank (s.heap n).Requires.length ≤ 2 * (s.heap n).Requires.length + 11 := by
  unfold NodeInv at hn
  cases hpc : s.pc n with
  | waitDep i =>
    rw [hpc] at hn
    have := hn.2.1
    simp only [PC.rank]; omega
  | checkDep i req =>
    rw [hpc] at hn
    have hilt : i < (s.heap n).Requires.length := by
      by_contra hc
      have := hn.2.1
      rw [List.getElem?_eq_none_iff.mpr (not_lt.mp hc)] at this
      cases this
    simp only [PC.rank]; omega
  | _ => simp only [PC.rank]; omega

/-- Every step raises `progress`. -/
theorem Step.progress_lt (wf : Workflow) (hnd : wf.Nodes.Nodup) (s s1 : RunState) (n : Ptr)
    (hinv : RunInv wf s) (h : Step wf.semCap s n s1) : progress wf s < progress wf s1 := by
  have hmem := Step.mem wf s s1 n hinv h
  have hother := (Step.frame _ s s1 n h).1
  have hlt := Step.rank_lt _ s s1 n (hinv.node n hmem) h
  rw [(hinv.frame n).1] at hlt
  unfold progress
  apply sum_map_lt_of_update wf.Nodes hnd n hmem
  · intro p hp
    rw [(hother p hp).1]
  · exact hlt

theorem progress_le (wf : Workflow) (s : RunState) (hinv : RunInv wf s) :
    progress wf s ≤ progressBound wf := by
  unfold progress progressBound
  apply sum_map_le
  intro p hp
  have := NodeInv.rank_le s p (hinv.node p hp)
  rw [(hinv.frame p).1] at this
  exact this

/-- From every reachable state of an acyclic workflow some schedule lets
every goroutine return. -/
theorem exists_schedule (wf : Workflow) (hwf : WellFormed wf) (hac : ¬ HasCycle wf) :
    ∀ (k : Nat) (s : RunState), RunInv wf s → progressBound wf - progress wf s ≤ k →
      ∃ sched, AllFinished wf (runSchedule wf.semCap s sched) := by
  intro k
  induction k with
  | zero =>
    intro s hinv hk
    by_cases hf : AllFinished wf s
    · exact ⟨[], hf⟩
    · obtain ⟨n, s1, hstep⟩ := exists_step wf hwf hac s hinv hf
      have h1 := Step.progress_lt wf hwf.nodup s s1 n hinv hstep
      have h2 := progress_le wf s1 (RunInv.step wf hwf.nodup s s1 n hinv hstep)
      omega
  | succ k ih =>
    intro s hinv hk
    by_cases hf : AllFinished wf s
    · exact ⟨[], hf⟩
    · obtain ⟨n, s1, hstep⟩ := exists_step wf hwf hac s hinv hf
      have h1 := Step.progress_lt wf hwf.nodup s s1 n hinv hstep
      have hinv1 := RunInv.step wf hwf.nodup s s1 n hinv hstep
      obtain ⟨sched, hs⟩ := ih s1 hinv1 (by omega)
      refine ⟨n :: sched, ?_⟩
      simp only [runSchedule, step_complete _ s s1 n hstep]
      exact hs

/-! ## Run: ordering and concurrency guarantees -/

theorem emptyWf_built : Built emptyWf :=
  Built.newWorkflow 2 false emptyWf rfl

theorem chainWf_built : Built chainWf :=
  Built.addDependency _ 1 [0]
    (Built.createNode _ 1 _ [] (Built.createNode _ 0 _ [] emptyWf_built (by decide)) (by decide))
    (by decide) (by decide)

theorem failingWf_built : Built failingWf :=
  Built.addDependency _ 1 [0]
    (Built.createNode _ 1 _ [] (Built.createNode _ 0 _ [] emptyWf_built (by decide)) (by decide))
    (by decide) (by decide)

theorem cyclicWf_built : Built cyclicWf :=
  Built.addDependency _ 0 [1]
    (Built.addDependency _ 1 [0]
      (Built.createNode _ 1 _ [] (Built.createNode _ 0 _ [] emptyWf_built (by decide))
        (by decide))
      (by decide) (by decide))
    (by decide) (by decide)

/-- A workflow on which a rank decreases along every dependency has no cycle. -/
theorem acyclic_of_rank (wf : Workflow) (rank : Ptr → Nat)
    (h : ∀ n d, Dep wf n d → rank d < rank n) : ¬ HasCycle wf := by
  rintro ⟨n, _, hc⟩
  have : ∀ a b, Relation.TransGen (Dep wf) a b → rank b < rank a := by
    intro a b hab
    induction hab with
    | single h1 => exact h _ _ h1
    | tail _ h2 ih => exact lt_trans (h _ _ h2) ih
  exact lt_irrefl _ (this n n hc)

theorem chainWf_acyclic : ¬ HasCycle chainWf := by
  apply acyclic_of_rank chainWf (fun p => p)
  intro n d hd
  by_cases h1 : n = 1
  · subst h1
    have : d = 0 := by simpa [Dep, chainWf, AddDependency, CreateNode] using hd
    subst this
    exact Nat.zero_lt_one
  · by_cases h0 : n = 0
    · subst h0
      simp [Dep, chainWf, AddDependency, CreateNode] at hd
    · simp [Dep, chainWf, AddDependency, CreateNode, Function.update_noteq h1,
        Function.update_noteq h0, emptyWf, Node.blank] at hd

theorem failingWf_acyclic : ¬ HasCycle failingWf := by
  apply acyclic_of_rank failingWf (fun p => p)
  intro n d hd
  by_cases h1 : n = 1
  · subst h1
    have : d = 0 := by simpa [Dep, failingWf, AddDependency, CreateNode] using hd
    subst this
    exact Nat.zero_lt_one
  · by_cases h0 : n = 0
    · subst h0
      simp [Dep, failingWf, AddDependency, CreateNode] at hd
    · simp [Dep, failingWf, AddDependency, CreateNode, Function.update_noteq h1,
        Function.update_noteq h0, emptyWf, Node.blank] at hd

theorem cyclicWf_hasCycle : HasCycle cyclicWf :=
  ⟨0, by decide,
    Relation.TransGen.tail (Relation.TransGen.single (show Dep cyclicWf 0 1 by unfold Dep; decide))
      (show Dep cyclicWf 1 0 by unfold Dep; decide)⟩

/-- A node whose `Done` is closed is the same in every later state. -/
theorem runSchedule_stable (wf : Workflow) (hnd : wf.Nodes.Nodup) (sched : List Ptr)
    (s : RunState) (hinv : RunInv wf s) (d : Ptr) (hd : (s.heap d).Done = true) :
    (runSchedule wf.semCap s sched).heap d = s.heap d := by
  induction sched generalizing s with
  | nil => rfl
  | cons n rest ih =>
    simp only [runSchedule]
    cases h : step wf.semCap s n with
    | none => exact ih s hinv hd
    | some s1 =>
      have hstep := step_sound _ s s1 n h
      have hn := hinv.node n (Step.mem wf s s1 n hinv hstep)
      have hst := Step.stable _ s s1 n hn hstep d hd
      have := ih s1 (RunInv.step wf hnd s s1 n hinv hstep) (by rw [hst]; exact hd)
      simpa [hst] using this

/-- In a reachable state, a node that has left `Pending`, or whose goroutine
is about to enter `executeNode`, has all its requirements done without
error. -/
theorem RunInv.started (wf : Workflow) (s : RunState) (hinv : RunInv wf s) (n : Ptr)
    (hn : n ∈ wf.Nodes) (h : s.pc n = .execStart ∨ (s.heap n).State ≠ .Pending) :
    AllOk s.heap n := by
  have hnode := hinv.node n hn
  unfold NodeInv at hnode
  rcases h with h | h
  · rw [h] at hnode; exact hnode.2
  · cases hpc : s.pc n <;> rw [hpc] at hnode <;> simp only at hnode
    · exact absurd hnode.1.2.2.1 h
    · exact absurd hnode.1.2.2.1 h
    · obtain ⟨⟨_, _, _, _, _, _, _, _, hs, _⟩, _⟩ := hnode
      exact absurd hs h
    · exact hnode.2
    · exact hnode.2
    · exact hnode.2.2.2.2
    · exact hnode.1.2.2
    · exact hnode.1.2.2
    · exact hnode.1.2.2
    · exact hnode.1.2.2
    · exact hnode.1.2.2
    · exact hnode.1.2.2
    · rcases hnode.2 with ⟨_, _, _, _, _, _, _, _, hs, _⟩ | ⟨he, _⟩
      · exact absurd hs h
      · exact he.2.2

/-- The workflow the goroutines run on is well formed and has the capacity
of the workflow `Run` was called on. -/
theorem sortNodes_ok (wf : Workflow) (hwf : WellFormed wf) (useTopologicalSort : Bool)
    (wf1 : Workflow) (hsort : sortNodes wf useTopologicalSort = some (.ok wf1)) :
    WellFormed wf1 ∧ wf1.heap = wf.heap ∧ wf1.semCap = wf.semCap ∧
      (∀ p, p ∈ wf1.Nodes ↔ p ∈ wf.Nodes) ∧ (useTopologicalSort = true → ¬ HasCycle wf) := by
  rcases sortNodes_spec wf hwf useTopologicalSort with ⟨_, _, h⟩ | ⟨hc, wf2, h, h1, h2, h3, _, _, _, h4⟩
  · rw [h] at hsort; cases hsort
  · rw [h] at hsort
    cases hsort
    refine ⟨h1, h2, h3, h4, fun hb => ?_⟩
    rcases hc with hc | hc
    · rw [hb] at hc; cases hc
    · exact hc

/-- C9. In every execution of `Run`, in every interleaving: a node whose
goroutine is about to enter `executeNode`, or that has left `Pending` (the
first statement of `executeNode` has run), has every declared dependency
with its `Done` channel closed; and a node whose `Done` channel is closed
is never written again, so its `Result` and `Error` are final at that
point. -/
theorem Run_waits_for_dependencies (wf : Workflow) (hb : Built wf) (useTopologicalSort : Bool)
    (wf1 : Workflow) (hsort : sortNodes wf useTopologicalSort = some (.ok wf1))
    (sched later : List Ptr) :
    (∀ n ∈ wf1.Nodes,
      ((runSchedule wf1.semCap (initRun wf1) sched).pc n = .execStart ∨
        ((runSchedule wf1.semCap (initRun wf1) sched).heap n).State ≠ .Pending) →
      ∀ d ∈ (wf1.heap n).Requires,
        ((runSchedule wf1.semCap (initRun wf1) sched).heap d).Done = true) ∧
    (∀ d, ((runSchedule wf1.semCap (initRun wf1) sched).heap d).Done = true →
      (runSchedule wf1.semCap (initRun wf1) (sched ++ later)).heap d =
        (runSchedule wf1.semCap (initRun wf1) sched).heap d) := by
  have hwf1 := (sortNodes_ok wf (Built.wellFormed wf hb) useTopologicalSort wf1 hsort).1
  have hinv := RunInv.reach wf1 hwf1 sched
  constructor
  · intro n hn h d hd
    rw [← (hinv.frame n).1] at hd
    exact (RunInv.started wf1 _ hinv n hn h d hd).1
  · intro d hd
    rw [runSchedule_append]
    exact runSchedule_stable wf1 hwf1.nodup later _ hinv d hd

/-- C9 at the chain `B requires A`, twelve rounds into the run. -/
theorem Run_waits_for_dependencies_witness :
    Built chainWf ∧ sortNodes chainWf false = some (.ok chainWf) ∧
    ((∀ n ∈ chainWf.Nodes,
      ((runSchedule chainWf.semCap (initRun chainWf) (roundRobin [0, 1] 12)).pc n = .execStart ∨
        ((runSchedule chainWf.semCap (initRun chainWf) (roundRobin [0, 1] 12)).heap n).State
          ≠ .Pending) →
      ∀ d ∈ (chainWf.heap n).Requires,
        ((runSchedule chainWf.semCap (initRun chainWf) (roundRobin [0, 1] 12)).heap d).Done
          = true) ∧
    (∀ d, ((runSchedule chainWf.semCap (initRun chainWf) (roundRobin [0, 1] 12)).heap d).Done
        = true →
      (runSchedule chainWf.semCap (initRun chainWf)
          (roundRobin [0, 1] 12 ++ roundRobin [0, 1] 4)).heap d =
        (runSchedule chainWf.semCap (initRun chainWf) (roundRobin [0, 1] 12)).heap d)) :=
  ⟨chainWf_built, rfl,
    Run_waits_for_dependencies chainWf chainWf_built false chainWf rfl (roundRobin [0, 1] 12)
      (roundRobin [0, 1] 4)⟩

/-- C10. In every execution of `Run`, in every interleaving: the number of
goroutines inside `executeNode` never exceeds the capacity of `wf.sem`; the
length of `wf.sem` is the number of goroutines between their send and their
receive on it; a goroutine inside `executeNode` always leaves it (whatever
the task did) and then closes `Done` and gives its slot back; and once all
goroutines have returned the semaphore is empty. -/
theorem Run_concurrency_limit (wf : Workflow) (hb : Built wf) (useTopologicalSort : Bool)
    (wf1 : Workflow) (hsort : sortNodes wf useTopologicalSort = some (.ok wf1))
    (sched : List Ptr) :
    wf1.Nodes.countP
        (fun n => decide ((runSchedule wf1.semCap (initRun wf1) sched).pc n = .execBody))
      ≤ wf.semCap ∧
    (runSchedule wf1.semCap (initRun wf1) sched).semLen =
      wf1.Nodes.countP (fun n => ((runSchedule wf1.semCap (initRun wf1) sched).pc n).holding) ∧
    (runSchedule wf1.semCap (initRun wf1) sched).semLen ≤ wf.semCap ∧
    (∀ n ∈ wf1.Nodes, (runSchedule wf1.semCap (initRun wf1) sched).pc n = .execBody →
      ∃ s1, step wf1.semCap (runSchedule wf1.semCap (initRun wf1) sched) n = some s1 ∧
        s1.pc n = .closeDone ∧
        s1.semLen = (runSchedule wf1.semCap (initRun wf1) sched).semLen) ∧
    (∀ n ∈ wf1.Nodes, (runSchedule wf1.semCap (initRun wf1) sched).pc n = .closeDone →
      ∃ s1, step wf1.semCap (runSchedule wf1.semCap (initRun wf1) sched) n = some s1 ∧
        s1.pc n = .release ∧
        s1.semLen = (runSchedule wf1.semCap (initRun wf1) sched).semLen) ∧
    (∀ n ∈ wf1.Nodes, (runSchedule wf1.semCap (initRun wf1) sched).pc n = .release →
      ∃ s1, step wf1.semCap (runSchedule wf1.semCap (initRun wf1) sched) n = some s1 ∧
        s1.pc n = .captureCheck ∧
        s1.semLen + 1 = (runSchedule wf1.semCap (initRun wf1) sched).semLen) ∧
    (AllFinished wf1 (runSchedule wf1.semCap (initRun wf1) sched) →
      (runSchedule wf1.semCap (initRun wf1) sched).semLen = 0) := by
  obtain ⟨hwf1, _, hcap, _, _⟩ :=
    sortNodes_ok wf (Built.wellFormed wf hb) useTopologicalSort wf1 hsort
  have hinv := RunInv.reach wf1 hwf1 sched
  generalize runSchedule wf1.semCap (initRun wf1) sched = s at hinv ⊢
  have hsem := hinv.sem
  have hle := hinv.semCap
  refine ⟨?_, hsem, by omega, ?_, ?_, ?_, ?_⟩
  · have : wf1.Nodes.countP (fun n => decide (s.pc n = .execBody)) ≤
        wf1.Nodes.countP (fun n => (s.pc n).holding) := by
      apply List.countP_mono_left
      intro n _ h
      have : s.pc n = .execBody := by simpa using h
      rw [this]; rfl
    omega
  · intro n _ hpc
    exact ⟨_, step_complete _ s _ n (Step.executed hpc), by simp, by simp⟩
  · intro n hn hpc
    have hnode := hinv.node n hn
    unfold NodeInv at hnode
    rw [hpc] at hnode
    exact ⟨_, step_complete _ s _ n (Step.closed hpc hnode.2), by simp, by simp⟩
  · intro n hn hpc
    have hpos : 0 < wf1.Nodes.countP (fun p => (s.pc p).holding) :=
      List.countP_pos_iff.mpr ⟨n, hn, by rw [hpc]; rfl⟩
    refine ⟨_, step_complete _ s _ n (Step.released hpc (by omega)), by simp, ?_⟩
    simp only [goto_semLen]
    omega
  · intro hfin
    rw [hsem, List.countP_eq_zero]
    intro p hp
    rw [hfin p hp]
    simp [PC.holding]

/-- C10 at the chain `B requires A`, four rounds into the run. -/
theorem Run_concurrency_limit_witness :
    Built chainWf ∧ sortNodes chainWf true = some (.ok { chainWf with Nodes := [1, 0] }) ∧
    [1, 0].countP
        (fun n => decide ((runSchedule 2 (initRun { chainWf with Nodes := [1, 0] })
          (roundRobin [0, 1] 4)).pc n = .execBody)) ≤ chainWf.semCap :=
  ⟨chainWf_built, rfl,
    (Run_concurrency_limit chainWf chainWf_built true { chainWf with Nodes := [1, 0] } rfl
      (roundRobin [0, 1] 4)).1⟩

/-! ## Run: outcome -/

theorem runNodes_eq_some (wf : Workflow) (sched : List Ptr) (r : RunResult)
    (h : runNodes wf sched = some r) :
    AllFinished wf (runSchedule wf.semCap (initRun wf) sched) ∧
      r = finish wf (runSchedule wf.semCap (initRun wf) sched) := by
  unfold runNodes at h
  simp only at h
  split at h
  · rename_i hall
    cases h
    refine ⟨?_, rfl⟩
    intro n hn
    have := List.all_eq_true.mp hall n hn
    simpa using this
  · cases h

theorem runNodes_of_finished (wf : Workflow) (sched : List Ptr)
    (h : AllFinished wf (runSchedule wf.semCap (initRun wf) sched)) :
    runNodes wf sched = some (finish wf (runSchedule wf.semCap (initRun wf) sched)) := by
  unfold runNodes
  simp only
  rw [if_pos]
  rw [List.all_eq_true]
  intro n hn
  simpa using h n hn

/-- The two ways `Run` returns on a well-formed workflow: the sort found a
cycle and nothing was started, or every goroutine has returned. -/
theorem Run_some (wf : Workflow) (hwf : WellFormed wf) (useTopologicalSort : Bool)
    (sched : List Ptr) (r : RunResult) (h : Run wf useTopologicalSort sched = some r) :
    (useTopologicalSort = true ∧ HasCycle wf ∧
      r = { err := some cycleError, wf := wf, invoked := [] }) ∨
    (∃ wf1, sortNodes wf useTopologicalSort = some (.ok wf1) ∧
      AllFinished wf1 (runSchedule wf1.semCap (initRun wf1) sched) ∧
      r = finish wf1 (runSchedule wf1.semCap (initRun wf1) sched)) := by
  unfold Run at h
  rcases sortNodes_spec wf hwf useTopologicalSort with ⟨hb, hc, hs⟩ | ⟨_, wf1, hs, _⟩
  · rw [hs] at h
    cases h
    exact Or.inl ⟨hb, hc, rfl⟩
  · rw [hs] at h
    obtain ⟨h1, h2⟩ := runNodes_eq_some wf1 sched r h
    exact Or.inr ⟨wf1, hs, h1, h2⟩

/-- What is known about every node once all goroutines have returned. -/
theorem RunInv.final (wf : Workflow) (s : RunState) (hinv : RunInv wf s)
    (hfin : AllFinished wf s) (n : Ptr) (hn : n ∈ wf.Nodes) :
    (s.heap n).Done = true ∧
      (BlockedBy s.heap n ∨
        (Executed s.heap n ∧ ((s.heap n).Error ≠ none → s.firstEncounteredError ≠ none))) := by
  have hnode := hinv.node n hn
  unfold NodeInv at hnode
  rw [hfin n hn] at hnode
  exact hnode

theorem find?_eq_of_first (l : List Ptr) (p : Ptr → Bool) (i : Nat) (req : Ptr)
    (hget : l[i]? = some req) (hp : p req = true)
    (hpre : ∀ j, j < i → ∀ d, l[j]? = some d → p d = false) : l.find? p = some req := by
  induction l generalizing i with
  | nil => simp at hget
  | cons a l ih =>
    cases i with
    | zero =>
      simp only [List.getElem?_cons_zero, Option.some.injEq] at hget
      subst hget
      simp [List.find?, hp]
    | succ i =>
      have ha : p a = false := hpre 0 (Nat.succ_pos i) a (by simp)
      simp only [List.getElem?_cons_succ] at hget
      simp only [List.find?, ha]
      exact ih i hget (fun j hj d hd => hpre (j + 1) (by omega) d (by simpa using hd))

/-- After a run of an acyclic workflow the error of every node leads back,
through `dependency error` wrappers, to the error of a node that went through
`executeNode`. -/
theorem RunInv.errorChain (wf : Workflow) (hwf : WellFormed wf) (hac : ¬ HasCycle wf)
    (s : RunState) (hinv : RunInv wf s) (hfin : AllFinished wf s) :
    ∀ n ∈ wf.Nodes, ∀ e, (s.heap n).Error = some e → ErrorChain s.heap n e := by
  apply acyclic_induct wf hwf hac
  intro b hb ih e he
  rcases (RunInv.final wf s hinv hfin b hb).2 with ⟨i, req, e0, hget, _, hreq, _, herr, _, _⟩ | ⟨hex, _⟩
  · have hmem : req ∈ (s.heap b).Requires := List.mem_iff_getElem?.mpr ⟨i, hget⟩
    have hmem' : req ∈ (wf.heap b).Requires := by rw [← (hinv.frame b).1]; exact hmem
    rw [herr] at he
    cases he
    exact ErrorChain.wrap b req e0 hmem (ih req hmem' e0 hreq) herr
  · exact ErrorChain.root b e hex.1 he

/-- After a run of an acyclic workflow, an error on any node means an error
was recorded. -/
theorem RunInv.recorded (wf : Workflow) (hwf : WellFormed wf) (hac : ¬ HasCycle wf)
    (s : RunState) (hinv : RunInv wf s) (hfin : AllFinished wf s) :
    ∀ n ∈ wf.Nodes, (s.heap n).Error ≠ none → s.firstEncounteredError ≠ none := by
  apply acyclic_induct wf hwf hac
  intro b hb ih he
  rcases (RunInv.final wf s hinv hfin b hb).2 with ⟨i, req, e0, hget, _, hreq, _, _, _, _⟩ | ⟨_, hrec⟩
  · have hmem : req ∈ (wf.heap b).Requires := by
      rw [← (hinv.frame b).1]; exact List.mem_iff_getElem?.mpr ⟨i, hget⟩
    exact ih req hmem (by rw [hreq]; simp)
  · exact hrec he

/-- A node with a requirement that carries an error took the early return. -/
theorem RunInv.blocked_of_dep (wf : Workflow) (s : RunState) (hinv : RunInv wf s)
    (hfin : AllFinished wf s) (n : Ptr) (hn : n ∈ wf.Nodes) (d : Ptr)
    (hd : d ∈ (s.heap n).Requires) (he : (s.heap d).Error ≠ none) :
    BlockedBy s.heap n ∧ n ∉ s.invoked := by
  rcases (RunInv.final wf s hinv hfin n hn).2 with hbl | ⟨hex, _⟩
  · refine ⟨hbl, fun hmem => ?_⟩
    obtain ⟨_, _, _, _, _, _, _, _, hs, _⟩ := hbl
    exact (hinv.invoked n hmem).2 hs
  · exact absurd (hex.2.2 d hd).2 he

/-- C3. After `Run` on an acyclic workflow: a node with a dependency whose
error is set never had its task called and has no result, and its error is
`dependency error from node <id>: <err>` for the first such dependency in
declaration order; every node from which a node with an error can be reached
along dependencies was never called and carries an error that leads back,
through these wrappers, to the error of a node that went through
`executeNode`. -/
theorem Run_blocks_dependents (wf : Workflow) (hb : Built wf) (hac : ¬ HasCycle wf)
    (useTopologicalSort : Bool) (sched : List Ptr) (r : RunResult)
    (hrun : Run wf useTopologicalSort sched = some r) :
    (∀ n ∈ r.wf.Nodes, ∀ d e,
      (r.wf.heap n).Requires.find? (fun d => ((r.wf.heap d).Error).isSome) = some d →
      (r.wf.heap d).Error = some e →
      n ∉ r.invoked ∧ (r.wf.heap n).Result = .nil ∧
        (r.wf.heap n).Error = some (.depError (r.wf.heap d).Id e)) ∧
    (∀ n ∈ r.wf.Nodes, ∀ f, Relation.TransGen (Dep r.wf) n f → (r.wf.heap f).Error ≠ none →
      n ∉ r.invoked ∧ ∃ e, (r.wf.heap n).Error = some e ∧ ErrorChain r.wf.heap n e) := by
  have hwf := Built.wellFormed wf hb
  rcases Run_some wf hwf useTopologicalSort sched r hrun with ⟨_, hc, _⟩ | ⟨wf1, hsort, hfin, hr⟩
  · exact absurd hc hac
  obtain ⟨hwf1, hheap, _, hmem, _⟩ := sortNodes_ok wf hwf useTopologicalSort wf1 hsort
  have hac1 : ¬ HasCycle wf1 := fun h => hac ((hasCycle_congr wf wf1 hheap hmem).mp h)
  have hinv := RunInv.reach wf1 hwf1 sched
  generalize runSchedule wf1.semCap (initRun wf1) sched = s at hinv hfin hr
  subst hr
  have hclosed : ∀ p ∈ wf1.Nodes, ∀ d ∈ (s.heap p).Requires, d ∈ wf1.Nodes := by
    intro p hp d hd
    rw [(hinv.frame p).1] at hd
    exact hwf1.closed p hp d hd
  constructor
  · intro n hn d e hfind he
    have hn' : n ∈ wf1.Nodes := hn
    have hdmem : d ∈ (s.heap n).Requires := List.mem_of_find?_eq_some hfind
    obtain ⟨⟨i, req, e0, hget, _, hreq, hpre, herr, _, hres⟩, hninv⟩ :=
      RunInv.blocked_of_dep wf1 s hinv hfin n hn' d hdmem (by
        show (s.heap d).Error ≠ none
        have : (s.heap d).Error = some e := he
        rw [this]; simp)
    have hfirst : (s.heap n).Requires.find? (fun d => ((s.heap d).Error).isSome) = some req :=
      find?_eq_of_first _ _ i req hget (by simp [hreq])
        (fun j hj x hx => by simp [(hpre j hj x hx).2])
    have hdr : d = req := by
      have h1 : (s.heap n).Requires.find? (fun d => ((s.heap d).Error).isSome) = some d := hfind
      rw [hfirst] at h1
      exact (Option.some.inj h1).symm
    subst hdr
    have hee : e = e0 := by
      have h1 : (s.heap d).Error = some e := he
      rw [hreq] at h1
      exact (Option.some.inj h1).symm
    subst hee
    exact ⟨hninv, hres, herr⟩
  · have key : ∀ n f, Relation.TransGen (Dep (finish wf1 s).wf) n f →
        (s.heap f).Error ≠ none → n ∈ wf1.Nodes →
        BlockedBy s.heap n ∧ n ∉ s.invoked := by
      intro n f hpath
      induction hpath using Relation.TransGen.head_induction_on with
      | @base a hd =>
        intro he hn
        exact RunInv.blocked_of_dep wf1 s hinv hfin a hn _ hd he
      | @ih a c hd _ ih =>
        intro he hn
        have hcN : c ∈ wf1.Nodes := hclosed a hn c hd
        obtain ⟨⟨_, _, _, _, _, _, _, herr, _, _⟩, _⟩ := ih he hcN
        exact RunInv.blocked_of_dep wf1 s hinv hfin a hn c hd (by rw [herr]; simp)
    intro n hn f hpath he
    obtain ⟨⟨i, req, e0, _, _, _, _, herr, _, _⟩, hninv⟩ := key n f hpath he hn
    exact ⟨hninv, _, herr, RunInv.errorChain wf1 hwf1 hac1 s hinv hfin n hn _ herr⟩

/-- C5. `Run` on an acyclic workflow returns for some schedule, and whenever
it returns: the error is nil exactly when no node carries an error, in which
case every node is `Completed`; a non-nil error is the `Error` of a node of
the workflow. -/
theorem Run_error_iff (wf : Workflow) (hb : Built wf) (hac : ¬ HasCycle wf)
    (useTopologicalSort : Bool) :
    (∃ sched r, Run wf useTopologicalSort sched = some r) ∧
    ∀ sched r, Run wf useTopologicalSort sched = some r →
      (r.err = none ↔ ∀ n ∈ r.wf.Nodes, (r.wf.heap n).Error = none) ∧
      (r.err = none → ∀ n ∈ r.wf.Nodes, (r.wf.heap n).State = .Completed) ∧
      (∀ e, r.err = some e → ∃ n ∈ r.wf.Nodes, (r.wf.heap n).Error = some e) := by
  have hwf := Built.wellFormed wf hb
  constructor
  · rcases sortNodes_spec wf hwf useTopologicalSort with ⟨_, hc, _⟩ | ⟨_, wf1, hs, hwf1, hheap, _, _, _, _, hmem⟩
    · exact absurd hc hac
    · have hac1 : ¬ HasCycle wf1 := fun h => hac ((hasCycle_congr wf wf1 hheap hmem).mp h)
      obtain ⟨sched, hfin⟩ := exists_schedule wf1 hwf1 hac1 (progressBound wf1) (initRun wf1)
        (RunInv.init wf1 hwf1) (Nat.sub_le _ _)
      refine ⟨sched, finish wf1 (runSchedule wf1.semCap (initRun wf1) sched), ?_⟩
      unfold Run
      rw [hs]
      exact runNodes_of_finished wf1 sched hfin
  · intro sched r hrun
    rcases Run_some wf hwf useTopologicalSort sched r hrun with ⟨_, hc, _⟩ | ⟨wf1, hsort, hfin, hr⟩
    · exact absurd hc hac
    obtain ⟨hwf1, hheap, _, hmem, _⟩ := sortNodes_ok wf hwf useTopologicalSort wf1 hsort
    have hac1 : ¬ HasCycle wf1 := fun h => hac ((hasCycle_congr wf wf1 hheap hmem).mp h)
    have hinv := RunInv.reach wf1 hwf1 sched
    generalize runSchedule wf1.semCap (initRun wf1) sched = s at hinv hfin hr
    subst hr
    have hnone : s.firstEncounteredError = none → ∀ n ∈ wf1.Nodes, (s.heap n).Error = none := by
      intro h0 n hn
      by_contra hne
      exact RunInv.recorded wf1 hwf1 hac1 s hinv hfin n hn hne h0
    refine ⟨⟨hnone, ?_⟩, ?_, ?_⟩
    · intro hall
      show s.firstEncounteredError = none
      cases hf : s.firstEncounteredError with
      | none => rfl
      | some e =>
        obtain ⟨p, hp, he, _⟩ := hinv.first e hf
        have hpe : (s.heap p).Error = none := hall p hp
        rw [hpe] at he
        cases he
    · intro h0 n hn
      have hen := hnone h0 n hn
      rcases (RunInv.final wf1 s hinv hfin n hn).2 with ⟨_, _, _, _, _, _, _, herr, _, _⟩ | ⟨hex, _⟩
      · rw [hen] at herr; cases herr
      · exact hex.2.1 hen
    · intro e he
      obtain ⟨p, hp, hpe, _⟩ := hinv.first e he
      exact ⟨p, hp, hpe⟩

/-- C2. `Run(true)` on a built workflow returns the error `circular dependency
detected` exactly when the dependency relation has a cycle, and then it
returns, for every schedule, the workflow untouched and with no task called. -/
theorem Run_cycle_detection (wf : Workflow) (hb : Built wf) (sched : List Ptr) :
    ((∃ r, Run wf true sched = some r ∧ r.err = some cycleError) ↔ HasCycle wf) ∧
    (HasCycle wf →
      Run wf true sched = some { err := some cycleError, wf := wf, invoked := [] }) := by
  have hwf := Built.wellFormed wf hb
  have hcyc : HasCycle wf →
      Run wf true sched = some { err := some cycleError, wf := wf, invoked := [] } := by
    intro hc
    rcases sortNodes_spec wf hwf true with ⟨_, _, hs⟩ | ⟨hn, _⟩
    · unfold Run; rw [hs]
    · rcases hn with h | h
      · cases h
      · exact absurd hc h
  refine ⟨⟨?_, fun hc => ⟨_, hcyc hc, rfl⟩⟩, hcyc⟩
  rintro ⟨r, hrun, herr⟩
  rcases Run_some wf hwf true sched r hrun with ⟨_, hc, _⟩ | ⟨wf1, hsort, hfin, hr⟩
  · exact hc
  · exfalso
    obtain ⟨hwf1, _, _, _, _⟩ := sortNodes_ok wf hwf true wf1 hsort
    have hinv := RunInv.reach wf1 hwf1 sched
    subst hr
    obtain ⟨p, hp, hpe, _⟩ := hinv.first cycleError herr
    exact hinv.noNew p hp _ hpe

theorem panicWf_built : Built panicWf :=
  Built.createNode _ 0 _ [] emptyWf_built (by decide)

/-- C2 at two nodes that require each other. -/
theorem Run_cycle_detection_witness :
    Built cyclicWf ∧
    ((∃ r, Run cyclicWf true (roundRobin [0, 1] 3) = some r ∧ r.err = some cycleError) ↔
      HasCycle cyclicWf) ∧
    (HasCycle cyclicWf →
      Run cyclicWf true (roundRobin [0, 1] 3) =
        some { err := some cycleError, wf := cyclicWf, invoked := [] }) :=
  ⟨cyclicWf_built, Run_cycle_detection cyclicWf cyclicWf_built (roundRobin [0, 1] 3)⟩

/-- C3 at `B requires A` with a failing `A`: `B` is never called, has no
result and wraps the error of `A`. -/
theorem Run_blocks_dependents_witness :
    Built failingWf ∧ ¬ HasCycle failingWf ∧
    Run failingWf false (roundRobin [0, 1] 12) = some failingRun ∧
    (1 ∉ failingRun.invoked ∧ (failingRun.wf.heap 1).Result = .nil ∧
      (failingRun.wf.heap 1).Error =
        some (.depError (failingRun.wf.heap 0).Id (.external "boom"))) ∧
    (GoError.depError (failingRun.wf.heap 0).Id (.external "boom")).Error =
      "dependency error from node 0: boom" :=
  ⟨failingWf_built, failingWf_acyclic, rfl,
    (Run_blocks_dependents failingWf failingWf_built failingWf_acyclic false
      (roundRobin [0, 1] 12) failingRun rfl).1 1 (by decide) 0 (.external "boom") (by decide)
      (by decide),
    by decide⟩

/-- C5 at `B requires A` with a failing `A`: the error `Run` returns is the
error of a node. -/
theorem Run_error_iff_witness :
    Built failingWf ∧ ¬ HasCycle failingWf ∧
    Run failingWf false (roundRobin [0, 1] 12) = some failingRun ∧
    failingRun.err = some (.external "boom") ∧
    ∃ n ∈ failingRun.wf.Nodes, (failingRun.wf.heap n).Error = some (.external "boom") :=
  ⟨failingWf_built, failingWf_acyclic, rfl, by decide,
    ((Run_error_iff failingWf failingWf_built failingWf_acyclic false).2 (roundRobin [0, 1] 12)
      failingRun rfl).2.2 (.external "boom") (by decide)⟩

/-- In a list where every node comes after its requirements, the requirements
of a node all occur before the place of that node. -/
theorem Topo.deps_before (wf : Workflow) (stack : List Ptr) (h : Topo wf stack) :
    ∀ l b after, stack = l ++ b :: after → ∀ d ∈ (wf.heap b).Requires, d ∈ l := by
  induction h with
  | nil =>
    intro l b after heq
    simp at heq
  | snoc stack c _ hc ih =>
    intro l b after heq d hd
    rcases List.eq_nil_or_concat after with hnil | ⟨after1, x, hx⟩
    · subst hnil
      have h2 := List.append_inj' heq (by simp)
      obtain ⟨h3, h4⟩ := h2
      have hcb : c = b := by simpa using h4
      subst hcb
      rw [← h3]
      exact hc d hd
    · subst hx
      have heq' : stack ++ [c] = (l ++ b :: after1) ++ [x] := by
        rw [heq]; simp
      have h2 := List.append_inj' heq' (by simp)
      exact ih l b after1 h2.1 d hd

/-- The order `topologicalSort` returns on any acyclic workflow with distinct
ids and closed dependencies: every requirement of a node comes after that
node. -/
theorem topologicalSort_reversed (wf : Workflow) (hwf : WellFormed wf) (hac : ¬ HasCycle wf) :
    ∃ sortedNodes, topologicalSort wf = some (.ok sortedNodes) ∧
      ∀ before n after, sortedNodes = before ++ n :: after →
        ∀ d ∈ (wf.heap n).Requires, d ∈ after := by
  rcases topologicalSort_spec wf hwf.idInj hwf.closed with ⟨hc, _⟩ | ⟨_, stack, hs, ht, _, _⟩
  · exact absurd hc hac
  · refine ⟨stack.reverse, hs, ?_⟩
    intro before n after heq d hd
    have hstack : stack = after.reverse ++ n :: before.reverse := by
      have := congrArg List.reverse heq
      simpa using this
    have := Topo.deps_before wf stack ht after.reverse n before.reverse hstack d hd
    simpa using this

/-- After `Run` on any acyclic built workflow, a node with a requirement that
carries an error is still `Pending`. -/
theorem Run_blocked_pending (wf : Workflow) (hb : Built wf) (hac : ¬ HasCycle wf)
    (useTopologicalSort : Bool) (sched : List Ptr) (r : RunResult)
    (hrun : Run wf useTopologicalSort sched = some r) :
    ∀ n ∈ r.wf.Nodes, ∀ d ∈ (r.wf.heap n).Requires, (r.wf.heap d).Error ≠ none →
      (r.wf.heap n).State = .Pending := by
  have hwf := Built.wellFormed wf hb
  rcases Run_some wf hwf useTopologicalSort sched r hrun with ⟨_, hc, _⟩ | ⟨wf1, hsort, hfin, hr⟩
  · exact absurd hc hac
  obtain ⟨hwf1, _, _, _, _⟩ := sortNodes_ok wf hwf useTopologicalSort wf1 hsort
  have hinv := RunInv.reach wf1 hwf1 sched
  subst hr
  intro n hn d hd he
  obtain ⟨⟨_, _, _, _, _, _, _, _, hs, _⟩, _⟩ :=
    RunInv.blocked_of_dep wf1 _ hinv hfin n hn d hd he
  exact hs

/-- C1 fails on the code: for `B requires A`, `topologicalSort` returns `[B, A]`,
the dependent first, and `Run(true)` installs that order. -/
theorem topologicalSort_dependent_first :
    Built chainWf ∧ ¬ HasCycle chainWf ∧ (chainWf.heap 1).Requires = [0] ∧
    topologicalSort chainWf = some (.ok [1, 0]) ∧
    position [1, 0] 1 < position [1, 0] 0 ∧
    (∃ r, Run chainWf true (roundRobin [0, 1] 16) = some r ∧ r.wf.Nodes = [1, 0]) :=
  ⟨chainWf_built, chainWf_acyclic, by decide, rfl, by decide,
    ⟨finish { chainWf with Nodes := [1, 0] }
        (runSchedule 2 (initRun { chainWf with Nodes := [1, 0] }) (roundRobin [0, 1] 16)),
      rfl, rfl⟩⟩

/-- C4 fails on the code: a node blocked by a failed dependency is left
`Pending`, and a node whose task panicked is left `Running`. -/
theorem Run_leaves_state_unset :
    (Built failingWf ∧ ¬ HasCycle failingWf ∧
      Run failingWf false (roundRobin [0, 1] 12) = some failingRun ∧
      (failingRun.wf.heap 1).State = .Pending ∧
      (failingRun.wf.heap 1).Error = some (.depError 0 (.external "boom"))) ∧
    (Built panicWf ∧ ¬ HasCycle panicWf ∧
      Run panicWf false (roundRobin [0] 12) = some panicRun ∧
      (panicRun.wf.heap 0).State = .Running ∧
      (panicRun.wf.heap 0).Error = some (.panicError "oops")) := by
  refine ⟨⟨failingWf_built, failingWf_acyclic, rfl, by decide, by decide⟩,
    ⟨panicWf_built, ?_, rfl, by decide, by decide⟩⟩
  apply acyclic_of_rank panicWf (fun p => p)
  intro n d hd
  by_cases h0 : n = 0
  · subst h0
    simp [Dep, panicWf, CreateNode] at hd
  · simp [Dep, panicWf, CreateNode, Function.update_noteq h0, emptyWf, Node.blank] at hd

/-! ## Graph export -/

theorem foldl_append_eq (l : List Ptr) (f : Ptr → String) (init : String) :
    l.foldl (fun dot p => dot ++ f p) init = init ++ concatAll (l.map f) := by
  induction l generalizing init with
  | nil => simp [concatAll]
  | cons a l ih =>
    simp only [List.foldl_cons, List.map_cons, concatAll]
    rw [ih, String.append_assoc]

theorem concatAll_append (a b : List String) :
    concatAll (a ++ b) = concatAll a ++ concatAll b := by
  induction a with
  | nil => simp [concatAll]
  | cons x a ih =>
    show x ++ concatAll (a ++ b) = (x ++ concatAll a) ++ concatAll b
    rw [ih, String.append_assoc]

theorem foldl_edges_eq (l : List Ptr) (reqs : Ptr → List Ptr)
    (f : Ptr → Ptr → String) (init : String) :
    l.foldl (fun dot node => (reqs node).foldl (fun dot req => dot ++ f req node) dot) init =
      init ++ concatAll (l.flatMap (fun node => (reqs node).map (fun req => f req node))) := by
  induction l generalizing init with
  | nil => simp [concatAll]
  | cons a l ih =>
    simp only [List.foldl_cons, List.flatMap_cons]
    rw [ih, foldl_append_eq (reqs a) (fun req => f req a), concatAll_append, String.append_assoc]

/-- The method `ToDOT` writes the header, the node statements, the edge
statements and the closing brace, in this order. -/
theorem ToDOT_eq (wf : Workflow) :
    ToDOT wf =
      "digraph G \x7b\n" ++ concatAll (wf.Nodes.map (fun node => nodeStatement (wf.heap node)))
        ++ concatAll (edgeStatements wf) ++ "\x7d" := by
  unfold ToDOT edgeStatements
  simp only
  rw [foldl_append_eq wf.Nodes (fun node => nodeStatement (wf.heap node))]
  rw [foldl_edges_eq wf.Nodes (fun node => (wf.heap node).Requires)
    (fun req node => edgeStatement (wf.heap req) (wf.heap node))]

/-- C7, as amended. `ToDOT` returns `digraph G {`, one node statement per
node in `wf.Nodes` order, one edge statement `node<depId> -> node<id>` per
dependency pair (nodes in `wf.Nodes` order, dependencies in declaration
order), then `}`.  The colour of a node statement is red when the node's
`Error` is set, whatever its `State`; otherwise green for `Running`, blue for
`Completed` and gray for `Pending` and for `Errored`.  The text depends only
on the node list and on the fields `Id`, `Fn` (its name), `Error` (set or
not), `State` and `Requires` of the nodes. -/
theorem ToDOT_spec (wf : Workflow) :
    ToDOT wf =
      "digraph G \x7b\n" ++ concatAll (wf.Nodes.map (fun node => nodeStatement (wf.heap node)))
        ++ concatAll (edgeStatements wf) ++ "\x7d" ∧
    (wf.Nodes.map (fun node => nodeStatement (wf.heap node))).length = wf.Nodes.length ∧
    (edgeStatements wf).length = (wf.Nodes.map (fun node => (wf.heap node).Requires.length)).sum ∧
    (∀ node : Node,
      nodeStatement node =
        "    node" ++ toString node.Id ++ " [label=\"" ++ getFunctionName node.Fn ++ "\", color="
          ++ nodeColor node ++ ", style=filled];\n" ∧
      (node.Error ≠ none → nodeColor node = "red") ∧
      (node.Error = none → nodeColor node =
        match node.State with
        | .Running => "green"
        | .Completed => "blue"
        | .Pending => "gray"
        | .Errored => "gray")) ∧
    (∀ req node : Node,
      edgeStatement req node =
        "    node" ++ toString req.Id ++ " -> node" ++ toString node.Id ++ ";\n") ∧
    (∀ wf2 : Workflow, wf2.Nodes = wf.Nodes →
      (∀ p, (wf2.heap p).Id = (wf.heap p).Id ∧
        getFunctionName (wf2.heap p).Fn = getFunctionName (wf.heap p).Fn ∧
        ((wf2.heap p).Error = none ↔ (wf.heap p).Error = none) ∧
        (wf2.heap p).State = (wf.heap p).State ∧
        (wf2.heap p).Requires = (wf.heap p).Requires) →
      ToDOT wf2 = ToDOT wf) := by
  refine ⟨ToDOT_eq wf, by simp, ?_, ?_, fun _ _ => rfl, ?_⟩
  · unfold edgeStatements
    generalize wf.Nodes = l
    induction l with
    | nil => simp
    | cons a l ih => simp [List.flatMap_cons, ih]
  · intro node
    refine ⟨rfl, ?_, ?_⟩
    · intro h; simp [nodeColor, h]
    · intro h
      cases hs : node.State <;> simp [nodeColor, h, hs]
  · intro wf2 hnodes hfields
    have hcol : ∀ p, nodeColor (wf2.heap p) = nodeColor (wf.heap p) := by
      intro p
      obtain ⟨_, _, he, hs, _⟩ := hfields p
      unfold nodeColor
      rw [hs]
      by_cases h : (wf.heap p).Error = none
      · simp [h, he.mpr h]
      · have : (wf2.heap p).Error ≠ none := fun h2 => h (he.mp h2)
        simp [h, this]
    have hns : ∀ p, nodeStatement (wf2.heap p) = nodeStatement (wf.heap p) := by
      intro p
      obtain ⟨hid, hfn, _, _, _⟩ := hfields p
      unfold nodeStatement
      rw [hid, hfn, hcol p]
    have hes : ∀ r p, edgeStatement (wf2.heap r) (wf2.heap p) =
        edgeStatement (wf.heap r) (wf.heap p) := by
      intro r p
      unfold edgeStatement
      rw [(hfields r).1, (hfields p).1]
    rw [ToDOT_eq wf2, ToDOT_eq wf]
    unfold edgeStatements
    simp only [hnodes, hns, hes, (hfields _).2.2.2.2]

/-- C7 fails as stated: after `Run` on `B requires A` with a failing `A`, node
`B` is `Pending` and `ToDOT` colours it red, where the colour of the state
`Pending` is gray; and a node in state `Errored` whose `Error` is not set is
coloured gray, where the colour of the state `Errored` is red. -/
theorem ToDOT_colour_counterexample :
    (failingRun.wf.heap 1).State = .Pending ∧
    specColor (failingRun.wf.heap 1).State = "gray" ∧
    nodeColor (failingRun.wf.heap 1) = "red" ∧
    ToDOT failingRun.wf =
      "digraph G \x7b\n    node0 [label=\"main.A\", color=red, style=filled];\n    node1 [label=\"main.B\", color=red, style=filled];\n    node0 -> node1;\n\x7d" ∧
    specColor ({ Node.blank with State := .Errored } : Node).State = "red" ∧
    nodeColor { Node.blank with State := .Errored } = "gray" := by
  refine ⟨by decide, by decide, by decide, by decide, by decide, by decide⟩

/-! ## Argument binding -/

/-- What one pass of `bindSlot` does when it does not panic: the first
matching empty slot receives the result and nothing else changes, or no slot
matches and nothing changes. -/
theorem bindSlot_ok (result : Value) (ts : List GoType) (k : Nat) (args out : List Value)
    (h : bindSlot result ts k args = .ok out) :
    (∃ i t a, ts[i]? = some t ∧ result.typeOf = .param t ∧ args[k + i]? = some a ∧
      a.isZero = some true ∧ (∀ j, j < i → PassedOver result ts args k j) ∧
      out = args.set (k + i) result) ∨
    ((∀ j, PassedOver result ts args k j) ∧ out = args) := by
  induction ts generalizing k with
  | nil =>
    simp only [bindSlot] at h
    cases h
    exact Or.inr ⟨fun j t ht => by simp at ht, rfl⟩
  | cons t ts ih =>
    simp only [bindSlot] at h
    have shift : ∀ j, k + 1 + j = k + (j + 1) := fun j => by omega
    have lift : bindSlot result ts (k + 1) args = .ok out →
        (result.typeOf = .param t → ∃ a, args[k]? = some a ∧ a.isZero = some false) →
        (∃ i t1 a, (t :: ts)[i]? = some t1 ∧ result.typeOf = .param t1 ∧
          args[k + i]? = some a ∧ a.isZero = some true ∧
          (∀ j, j < i → PassedOver result (t :: ts) args k j) ∧
          out = args.set (k + i) result) ∨
        ((∀ j, PassedOver result (t :: ts) args k j) ∧ out = args) := by
      intro hrest h0
      have hpass : ∀ j, PassedOver result ts args (k + 1) j →
          PassedOver result (t :: ts) args k (j + 1) := by
        intro j hj t1 ht1 hm
        obtain ⟨a, ha1, ha2⟩ := hj t1 (by simpa using ht1) hm
        exact ⟨a, by rw [← shift]; exact ha1, ha2⟩
      have hzero : PassedOver result (t :: ts) args k 0 := by
        intro t1 ht1 hm
        simp only [List.getElem?_cons_zero, Option.some.injEq] at ht1
        subst ht1
        exact h0 hm
      rcases ih (k + 1) hrest with ⟨i, t1, a, h1, h2, h3, h4, h5, h6⟩ | ⟨h5, h6⟩
      · left
        refine ⟨i + 1, t1, a, by simpa using h1, h2, by rw [← shift]; exact h3, h4, ?_,
          by rw [← shift]; exact h6⟩
        intro j hj
        cases j with
        | zero => exact hzero
        | succ j => exact hpass j (h5 j (by omega))
      · right
        refine ⟨?_, h6⟩
        intro j
        cases j with
        | zero => exact hzero
        | succ j => exact hpass j (h5 j)
    by_cases hm : result.typeOf = .param t
    · simp only [hm, if_true] at h
      cases hget : args[k]? with
      | none => simp [hget] at h
      | some a =>
        simp only [hget] at h
        cases hz : a.isZero with
        | none => simp [hz] at h
        | some b =>
          cases b with
          | true =>
            simp only [hz] at h
            cases h
            left
            exact ⟨0, t, a, by simp, hm, by simpa using hget, hz,
              fun j hj => absurd hj (Nat.not_lt_zero j), rfl⟩
          | false =>
            simp only [hz] at h
            exact lift h (fun _ => ⟨a, hget, hz⟩)
    · simp only [hm, if_false] at h
      exact lift h (fun h' => absurd h' hm)

theorem bindArgs_nonempty_kept (heap : Ptr → Node) (ts : List GoType) (deps : List Ptr)
    (args : List Value) (i : Nat) (a : Value) (hget : args[i]? = some a)
    (hz : a.isZero ≠ some true) : (bindArgs heap ts deps args).1[i]? = some a := by
  induction deps generalizing args with
  | nil => exact hget
  | cons d rest ih =>
    simp only [bindArgs]
    cases hb : bindSlot (heap d).Result ts 0 args with
    | error r => exact hget
    | ok out =>
      simp only
      apply ih
      rcases bindSlot_ok _ ts 0 args out hb with ⟨j, t, b, _, _, hb1, hb2, _, hout⟩ | ⟨_, hout⟩
      · subst hout
        have hji : j ≠ i := by
          rintro rfl
          simp only [Nat.zero_add] at hb1
          rw [hget] at hb1
          cases hb1
          exact hz hb2
        simp only [Nat.zero_add]
        rw [List.getElem?_set_ne hji]
        exact hget
      · subst hout; exact hget

theorem bindArgs_unmatched_kept (heap : Ptr → Node) (ts : List GoType) (deps : List Ptr)
    (args : List Value) (i : Nat)
    (hno : ∀ t, ts[i]? = some t → ∀ d ∈ deps, (heap d).Result.typeOf ≠ .param t) :
    (bindArgs heap ts deps args).1[i]? = args[i]? := by
  induction deps generalizing args with
  | nil => rfl
  | cons d rest ih =>
    simp only [bindArgs]
    cases hb : bindSlot (heap d).Result ts 0 args with
    | error r => rfl
    | ok out =>
      simp only
      rw [ih out (fun t ht d' hd' => hno t ht d' (List.mem_cons_of_mem _ hd'))]
      rcases bindSlot_ok _ ts 0 args out hb with ⟨j, t, b, ht, hm, _, _, _, hout⟩ | ⟨_, hout⟩
      · subst hout
        have hji : j ≠ i := by
          rintro rfl
          exact hno t ht d (List.mem_cons_self _ _) hm
        simp only [Nat.zero_add]
        rw [List.getElem?_set_ne hji]
      · subst hout; rfl

theorem isZero_eq_none (a : Value) (h : a.isZero = none) : a = .nil := by
  cases a <;> simp [Value.isZero] at h ⊢

/-- When one pass of `bindSlot` panics: before any matching empty slot, it
met a slot of the type of `result` whose argument is missing or is the nil
interface value. -/
theorem bindSlot_error (result : Value) (ts : List GoType) (k : Nat) (args : List Value)
    (r : String) (h : bindSlot result ts k args = .error r) :
    ∃ i t, ts[i]? = some t ∧ result.typeOf = .param t ∧
      (args[k + i]? = none ∨ args[k + i]? = some .nil) ∧
      (∀ j, j < i → PassedOver result ts args k j) := by
  induction ts generalizing k with
  | nil => simp [bindSlot] at h
  | cons t ts ih =>
    simp only [bindSlot] at h
    have shift : ∀ j, k + 1 + j = k + (j + 1) := fun j => by omega
    have lift : bindSlot result ts (k + 1) args = .error r →
        (result.typeOf = .param t → ∃ a, args[k]? = some a ∧ a.isZero = some false) →
        ∃ i t1, (t :: ts)[i]? = some t1 ∧ result.typeOf = .param t1 ∧
          (args[k + i]? = none ∨ args[k + i]? = some .nil) ∧
          (∀ j, j < i → PassedOver result (t :: ts) args k j) := by
      intro hrest h0
      obtain ⟨i, t1, h1, h2, h3, h4⟩ := ih (k + 1) hrest
      refine ⟨i + 1, t1, by simpa using h1, h2, by rw [← shift]; exact h3, ?_⟩
      intro j hj
      cases j with
      | zero =>
        intro t2 ht2 hm
        simp only [List.getElem?_cons_zero, Option.some.injEq] at ht2
        subst ht2
        exact h0 hm
      | succ j =>
        intro t2 ht2 hm
        obtain ⟨a, ha1, ha2⟩ := h4 j (by omega) t2 (by simpa using ht2) hm
        exact ⟨a, by rw [← shift]; exact ha1, ha2⟩
    by_cases hm : result.typeOf = .param t
    · simp only [hm, if_true] at h
      cases hget : args[k]? with
      | none =>
        exact ⟨0, t, by simp, hm, Or.inl (by simpa using hget),
          fun j hj => absurd hj (Nat.not_lt_zero j)⟩
      | some a =>
        simp only [hget] at h
        cases hz : a.isZero with
        | none =>
          have := isZero_eq_none a hz
          subst this
          exact ⟨0, t, by simp, hm, Or.inr (by simpa using hget),
            fun j hj => absurd hj (Nat.not_lt_zero j)⟩
        | some b =>
          cases b with
          | true => simp [hz] at h
          | false =>
            simp only [hz] at h
            exact lift h (fun _ => ⟨a, hget, hz⟩)
    · simp only [hm, if_false] at h
      exact lift h (fun h' => absurd h' hm)

/-- C6, as amended. `executeNode` binds dependency by dependency, in
declaration order.  For one dependency it scans the slots in index order and
looks only at the slots whose parameter type is the type of the dependency's
result: the first such slot whose argument is the zero value of that
argument's own type receives the result, no other slot changes, and the scan
stops; if every such slot holds a value other than nil that is not the zero
value of its type, or there is no such slot, nothing changes; if, before a
slot is filled, the scan meets such a slot whose argument is the nil
interface value (or is missing), `reflect` panics:
`executeNode` recovers, sets the node's `Error` to the panic, leaves `Result`
and `State` as they are, does not call the task, and keeps the arguments as
bound by the earlier dependencies.  A slot for which no dependency has the
matching type keeps its value, and a slot that holds a non-empty value is
never changed.  A node with one empty string slot and two dependencies
returning a string and an int receives the string in that slot, whichever
of the two was declared first; a node with slots `nil` and `""` of type string
and a string dependency panics on the first slot and fills neither. -/
theorem executeNode_binding (heap : Ptr → Node) (ts : List GoType) :
    (∀ (result : Value) (args : List Value),
      (∃ i t a, ts[i]? = some t ∧ result.typeOf = .param t ∧ args[i]? = some a ∧
        a.isZero = some true ∧ (∀ j, j < i → PassedOver result ts args 0 j) ∧
        bindSlot result ts 0 args = .ok (args.set i result)) ∨
      ((∀ j, PassedOver result ts args 0 j) ∧ bindSlot result ts 0 args = .ok args) ∨
      (∃ i t r, ts[i]? = some t ∧ result.typeOf = .param t ∧
        (args[i]? = none ∨ args[i]? = some .nil) ∧
        (∀ j, j < i → PassedOver result ts args 0 j) ∧
        bindSlot result ts 0 args = .error r)) ∧
    (∀ args : List Value, bindArgs heap ts [] args = (args, none)) ∧
    (∀ (dep : Ptr) (rest : List Ptr) (args out : List Value),
      bindSlot (heap dep).Result ts 0 args = .ok out →
      bindArgs heap ts (dep :: rest) args = bindArgs heap ts rest out) ∧
    (∀ (dep : Ptr) (rest : List Ptr) (args : List Value) (r : String),
      bindSlot (heap dep).Result ts 0 args = .error r →
      bindArgs heap ts (dep :: rest) args = (args, some r)) ∧
    (∀ (deps : List Ptr) (args : List Value) (i : Nat) (a : Value), args[i]? = some a →
      a.isZero ≠ some true →
      (bindArgs heap ts deps args).1[i]? = some a) ∧
    (∀ (deps : List Ptr) (args : List Value) (i : Nat),
      (∀ t, ts[i]? = some t → ∀ d ∈ deps, (heap d).Result.typeOf ≠ .param t) →
      (bindArgs heap ts deps args).1[i]? = args[i]?) ∧
    (∀ node : Ptr, (executeNodeBody heap node).1.Args =
      (bindArgs heap (heap node).Fn.inTypes (heap node).Requires (heap node).Args).1) ∧
    (∀ (node : Ptr) (r : String),
      (bindArgs heap (heap node).Fn.inTypes (heap node).Requires (heap node).Args).2 = some r →
      (executeNodeBody heap node).1.Error = some (.panicError r) ∧
      (executeNodeBody heap node).1.Result = (heap node).Result ∧
      (executeNodeBody heap node).1.State = (heap node).State ∧
      (executeNodeBody heap node).2 = false) ∧
    (∀ node : Ptr,
      (bindArgs heap (heap node).Fn.inTypes (heap node).Requires (heap node).Args).2 = none →
      (executeNodeBody heap node).2 = true) ∧
    (∀ (d1 d2 : Ptr) (s : String) (k : Int), (heap d1).Result = .str s →
      (heap d2).Result = .int k →
      bindArgs heap [.string] [d1, d2] [.str ""] = ([.str s], none) ∧
      bindArgs heap [.string] [d2, d1] [.str ""] = ([.str s], none)) ∧
    (∀ (d : Ptr) (s : String), (heap d).Result = .str s →
      bindArgs heap [.string, .string] [d] [.nil, .str ""] =
        ([.nil, .str ""], some "reflect: Zero(nil)")) := by
  refine ⟨?_, fun _ => rfl, ?_, ?_, bindArgs_nonempty_kept heap ts,
    bindArgs_unmatched_kept heap ts, ?_, ?_, ?_, ?_, ?_⟩
  · intro result args
    cases hb : bindSlot result ts 0 args with
    | ok out =>
      rcases bindSlot_ok result ts 0 args out hb with ⟨i, t, a, h1, h2, h3, h4, h5, h6⟩ | ⟨h5, h6⟩
      · left
        refine ⟨i, t, a, h1, h2, by simpa using h3, h4, h5, ?_⟩
        rw [h6]; simp
      · right; left
        exact ⟨h5, by rw [h6]⟩
    | error r =>
      obtain ⟨i, t, h1, h2, h3, h4⟩ := bindSlot_error result ts 0 args r hb
      right; right
      exact ⟨i, t, r, h1, h2, by simpa using h3, h4, rfl⟩
  · intro dep rest args out h
    simp only [bindArgs, h]
  · intro dep rest args r h
    simp only [bindArgs, h]
  · intro node
    unfold executeNodeBody
    simp only
    split
    · rename_i args r h; simp [h]
    · rename_i args h
      split
      · simp [h]
      · split
        · simp [h]
        · split <;> simp [h]
  · intro node r h
    unfold executeNodeBody
    simp only
    split
    · rename_i args r1 h1
      rw [h1] at h
      simp only [Option.some.injEq] at h
      subst h
      exact ⟨rfl, rfl, rfl, rfl⟩
    · rename_i args h1
      rw [h1] at h
      cases h
  · intro node h
    unfold executeNodeBody
    simp only
    split
    · rename_i args r1 h1
      rw [h1] at h
      cases h
    · split
      · rfl
      · split
        · rfl
        · split <;> rfl
  · intro d1 d2 s k h1 h2
    by_cases hs : s = ""
    · subst hs
      simp [bindArgs, bindSlot, h1, h2, Value.typeOf, Value.isZero]
    · simp [bindArgs, bindSlot, h1, h2, Value.typeOf, Value.isZero, hs]
  · intro d s h
    simp [bindArgs, bindSlot, h, Value.typeOf, Value.isZero]

/-- C6 fails as stated: `Join` has two empty string slots and one dependency
that returns the string `x`; slot by slot both slots would receive `x`, but
`executeNode` fills the first slot only. -/
theorem executeNode_binding_counterexample :
    Run twoSlotWf false (roundRobin [0, 1] 16) = some twoSlotRun ∧
    (twoSlotWf.heap 1).Args = [.str "", .str ""] ∧
    (twoSlotRun.wf.heap 1).Requires = [0] ∧
    (twoSlotRun.wf.heap 0).Result = .str "x" ∧
    specBindArgs twoSlotRun.wf.heap [0] [.string, .string] [.str "", .str ""] =
      [.str "x", .str "x"] ∧
    (twoSlotRun.wf.heap 1).Args = [.str "x", .str ""] ∧
    twoSlotRun.invoked = [0, 1] :=
  ⟨rfl, by decide, by decide, by decide, by decide, by decide, by decide⟩

/-- The panic of the binding on a built workflow: `Join` was created with the
preset argument `nil`; the scan for the result of `A` panics on slot 0, the
task of `Join` is never called, its arguments stay `nil` and `""`, and its
`Error` is the recovered panic. -/
theorem executeNode_binding_panic_example :
    Built nilSlotWf ∧
    Run nilSlotWf false (roundRobin [0, 1] 20) = some nilSlotRun ∧
    (nilSlotWf.heap 1).Args = [.nil, .str ""] ∧
    (nilSlotRun.wf.heap 0).Result = .str "x" ∧
    (nilSlotRun.wf.heap 1).Args = [.nil, .str ""] ∧
    (nilSlotRun.wf.heap 1).Error = some (.panicError "reflect: Zero(nil)") ∧
    nilSlotRun.invoked = [0] :=
  ⟨Built.addDependency _ 1 [0]
      (Built.createNode _ 1 _ [.nil] (Built.createNode _ 0 _ [] emptyWf_built (by decide))
        (by decide))
      (by decide) (by decide),
    rfl, by decide, by decide, by decide, by decide, by decide⟩

end Wf
